import Mathlib

set_option maxRecDepth 4000

/-!
Shallow embedding of the fidget tape compiler and evaluators.

The JIT assemblers (`src/fidget/src/jit/interval.rs`,
`src/fidget/src/jit/aarch64/point.rs`) emit straight-line machine code per
tape operation; each `build_*` function below is translated instruction by
instruction into a pure function over a small float model.  The scheduler
(`src/fidget/src/core/chunky/mod.rs`) and the render driver
(`src/fidget/src/render.rs`) are translated as explicit work-stack loops and
list folds.
-/

/-- Model of an IEEE single value as used by the tape evaluators: either NaN
or an exact numeric value (signed zeros and infinities are not
distinguished). -/
inductive F where
  | nan : F
  | fin : ℚ → F
deriving DecidableEq, Repr

/-- Ordered strict less-than, as computed by `fcmgt` / `comiss` + `jb`: any
comparison involving NaN is false. -/
def F.flt : F → F → Bool
  | .fin a, .fin b => a < b
  | _, _ => false

/-- Ordered less-or-equal, as computed by `fcmle`: false when either operand
is NaN. -/
def F.fle : F → F → Bool
  | .fin a, .fin b => a ≤ b
  | _, _ => false

/-- True when either operand is NaN (the x86 `comiss` parity-flag case). -/
def F.unord : F → F → Bool
  | .fin _, .fin _ => false
  | _, _ => true

/-- aarch64 `fmin`: NaN-propagating minimum. -/
def F.fmin : F → F → F
  | .fin a, .fin b => .fin (min a b)
  | _, _ => .nan

/-- aarch64 `fmax`: NaN-propagating maximum. -/
def F.fmax : F → F → F
  | .fin a, .fin b => .fin (max a b)
  | _, _ => .nan

/-- x86 `minss` / `vminps` lane semantics: `a < b ? a : b` (the second
operand wins on NaN or equality). -/
def F.minx (a b : F) : F := if F.flt a b then a else b

/-- x86 `maxss` / `vmaxps` lane semantics: `b < a ? a : b`. -/
def F.maxx (a b : F) : F := if F.flt b a then a else b

/-- aarch64 `fmaxnm`: NaN-ignoring maximum, the pairwise operation of the
`fmaxnmv` reduction. -/
def F.fmaxnm : F → F → F
  | .fin a, .fin b => .fin (max a b)
  | .nan, b => b
  | a, .nan => a

/-- `fneg` on the model. -/
def F.fneg : F → F
  | .fin a => .fin (-a)
  | .nan => .nan

/-- `fabs` on the model (NaN stays NaN). -/
def F.fabs : F → F
  | .fin a => .fin |a|
  | .nan => .nan

/-- Integer square root (largest `k` with `k * k ≤ n`), written with
`Nat.findGreatest` so that it reduces structurally. -/
def natSqrtM (n : Nat) : Nat := Nat.findGreatest (fun k => k * k ≤ n) n

/-- Exact model of the square root used on the values the proofs touch
(perfect squares): componentwise integer square root of numerator and
denominator. -/
def ratSqrt (q : ℚ) : ℚ := (natSqrtM q.num.toNat : ℚ) / (natSqrtM q.den : ℚ)

/-- Model of `fsqrt` / `sqrtss`: NaN for negative or NaN input, otherwise the
exact square root model. -/
def F.fsqrt : F → F
  | .nan => .nan
  | .fin q => if q < 0 then .nan else .fin (ratSqrt q)

/-- An interval value: one SIMD register holding lower and upper bound. -/
structure Itv where
  lo : F
  hi : F
deriving DecidableEq, Repr

/-- Modelled from the spec: bit 1 of a choice byte marks a Left contribution
(the `CHOICE_LEFT` constant lives in `crate::jit`, outside `src/`). -/
def CHOICE_LEFT : Nat := 2

/-- Modelled from the spec: bit 2 of a choice byte marks a Right contribution
(the `CHOICE_RIGHT` constant lives in `crate::jit`, outside `src/`). -/
def CHOICE_RIGHT : Nat := 4

/-- Modelled from the spec: `CHOICE_BOTH` is Left and Right together (the
constant lives in `crate::jit`, outside `src/`). -/
def CHOICE_BOTH : Nat := 6

/-- Result of one interval `min`/`max` on aarch64: the output interval, the
updated choice byte (the code loads it with `ldrb w14`, ORs the mark in, and
stores it back with `strb w14`), and the simplify flag (the left/right arms
store a non-zero byte through `x2`). -/
structure IvOut where
  out : Itv
  choice : Nat
  simplify : Bool
deriving DecidableEq, Repr

/-- `IntervalAssembler::build_min` (aarch64): compares
`lhs.upper < rhs.lower` and `rhs.upper < lhs.lower` with `fcmgt` (false on
NaN), branches on the second test first, and ORs the choice mark into the
loaded byte. -/
def buildMinA64 (lhs rhs : Itv) (choice : Nat) (simplify : Bool) : IvOut :=
  let e0 := F.flt lhs.hi rhs.lo
  let e1 := F.flt rhs.hi lhs.lo
  if e1 then ⟨rhs, choice ||| CHOICE_RIGHT, true⟩
  else if e0 then ⟨lhs, choice ||| CHOICE_LEFT, true⟩
  else ⟨⟨F.fmin lhs.lo rhs.lo, F.fmin lhs.hi rhs.hi⟩,
        choice ||| CHOICE_BOTH, simplify⟩

/-- `IntervalAssembler::build_max` (aarch64), mirroring `build_min`. -/
def buildMaxA64 (lhs rhs : Itv) (choice : Nat) (simplify : Bool) : IvOut :=
  let e0 := F.flt lhs.hi rhs.lo
  let e1 := F.flt rhs.hi lhs.lo
  if e1 then ⟨lhs, choice ||| CHOICE_LEFT, true⟩
  else if e0 then ⟨rhs, choice ||| CHOICE_RIGHT, true⟩
  else ⟨⟨F.fmax lhs.lo rhs.lo, F.fmax lhs.hi rhs.hi⟩,
        choice ||| CHOICE_BOTH, simplify⟩

/-- Result of one interval `min`/`max` on x86_64.  The code loads a 16-bit
`ax` from the choice pointer and stores 16 bits back; `ax` is the stored
half-word. -/
structure IvOutX where
  out : Itv
  ax : Nat
  simplify : Bool
deriving DecidableEq, Repr

/-- The low 16 bits of the f32 NaN pattern `0x7FC00000`, which `mov eax, NAN`
leaves in `ax` on the x86_64 NaN path. -/
def NAN_LOW16 : Nat := 0x7FC00000 % 65536

/-- `IntervalAssembler::build_min` (x86_64): `comiss` with `jp` to the NaN
arm before each `jb`; on the NaN arm the `or ax, CHOICE_BOTH` result is
overwritten by `mov eax, NAN`, so the stored half-word is `NAN_LOW16`. -/
def buildMinX86 (lhs rhs : Itv) (ax : Nat) (simplify : Bool) : IvOutX :=
  if F.unord lhs.hi rhs.lo then ⟨⟨F.nan, F.nan⟩, NAN_LOW16, simplify⟩
  else if F.flt lhs.hi rhs.lo then ⟨lhs, (ax ||| CHOICE_LEFT) % 65536, true⟩
  else if F.unord rhs.hi lhs.lo then ⟨⟨F.nan, F.nan⟩, NAN_LOW16, simplify⟩
  else if F.flt rhs.hi lhs.lo then ⟨rhs, (ax ||| CHOICE_RIGHT) % 65536, true⟩
  else ⟨⟨F.minx lhs.lo rhs.lo, F.minx lhs.hi rhs.hi⟩,
        (ax ||| CHOICE_BOTH) % 65536, simplify⟩

/-- `IntervalAssembler::build_max` (x86_64), mirroring `build_min`. -/
def buildMaxX86 (lhs rhs : Itv) (ax : Nat) (simplify : Bool) : IvOutX :=
  if F.unord lhs.hi rhs.lo then ⟨⟨F.nan, F.nan⟩, NAN_LOW16, simplify⟩
  else if F.flt lhs.hi rhs.lo then ⟨rhs, (ax ||| CHOICE_RIGHT) % 65536, true⟩
  else if F.unord rhs.hi lhs.lo then ⟨⟨F.nan, F.nan⟩, NAN_LOW16, simplify⟩
  else if F.flt rhs.hi lhs.lo then ⟨lhs, (ax ||| CHOICE_LEFT) % 65536, true⟩
  else ⟨⟨F.maxx lhs.lo rhs.lo, F.maxx lhs.hi rhs.hi⟩,
        (ax ||| CHOICE_BOTH) % 65536, simplify⟩

/-- `IntervalAssembler::build_abs` (aarch64): `fcmle` against zero on both
lanes, branch on the upper lane first; the straddling arm computes
`fmaxnmv` over `[abs lo, abs hi, 0, 0]` and falls through into the `rev64`
swap, producing `[0, max]`. -/
def buildAbsA64 (v : Itv) : Itv :=
  let al := F.fabs v.lo
  let ah := F.fabs v.hi
  if F.fle v.hi (F.fin 0) then ⟨ah, al⟩
  else if F.fle v.lo (F.fin 0) then
    ⟨F.fin 0, F.fmaxnm (F.fmaxnm al ah) (F.fmaxnm (F.fin 0) (F.fin 0))⟩
  else ⟨al, ah⟩

/-- `IntervalAssembler::build_abs` (x86_64): strict `comiss` tests; the
negative arm flips both signs and swaps, the straddling arm compares
`abs hi` with `abs lo` and keeps the larger as the new upper bound. -/
def buildAbsX86 (v : Itv) : Itv :=
  let al := F.fabs v.lo
  let ah := F.fabs v.hi
  if F.flt v.hi (F.fin 0) then ⟨F.fneg v.hi, F.fneg v.lo⟩
  else if F.flt v.lo (F.fin 0) then
    if F.flt al ah then ⟨F.fin 0, ah⟩ else ⟨F.fin 0, al⟩
  else ⟨v.lo, v.hi⟩

/-- `IntervalAssembler::build_sqrt` (aarch64): `fcmle` against zero, upper
lane first, so an interval with `upper ≤ 0` takes the NaN arm. -/
def buildSqrtA64 (v : Itv) : Itv :=
  if F.fle v.hi (F.fin 0) then ⟨F.nan, F.nan⟩
  else if F.fle v.lo (F.fin 0) then ⟨F.fin 0, F.fsqrt v.hi⟩
  else ⟨F.fsqrt v.lo, F.fsqrt v.hi⟩

/-- `IntervalAssembler::build_sqrt` (x86_64): strict `comiss` tests, so only
`upper < 0` takes the NaN arm. -/
def buildSqrtX86 (v : Itv) : Itv :=
  if F.flt v.hi (F.fin 0) then ⟨F.nan, F.nan⟩
  else if F.flt v.lo (F.fin 0) then ⟨F.fin 0, F.fsqrt v.hi⟩
  else ⟨F.fsqrt v.lo, F.fsqrt v.hi⟩

/-- Machine state threaded through the aarch64 point-assembler choice
operations: the tracked value register, the general-purpose register `w15`,
the low byte of SIMD register `V15` (the target of `ldr b15` / source of
`str b15`), the choice byte array behind `x2`, the simplify byte behind
`x3`, and the stack memory slots. -/
structure PtState where
  value : F
  w15 : Nat
  v15b : Nat
  choices : List Nat
  simplifyB : Nat
  mem : List F
deriving DecidableEq, Repr

/-- Modelled from the spec: `set_choice_bit` (defined in the aarch64 jit
module, outside `src/`) ORs the bit at the choice's bit position into the
choice byte. -/
def setChoiceBit (i bit : Nat) (s : PtState) : PtState :=
  { s with choices := s.choices.set i ((s.choices.getD i 0) ||| (1 <<< bit)) }

/-- Modelled from the spec: `set_choice_exclusive` (outside `src/`)
overwrites the choice byte with exactly the winning side's bit. -/
def setChoiceExclusive (i bit : Nat) (s : PtState) : PtState :=
  { s with choices := s.choices.set i (1 <<< bit) }

/-- The trailing block of the choice reductions: `ldr b15, [x2, #i]`,
`orr w15, w15, #1`, `str b15, [x2, #i]`.  The OR updates the
general-purpose `w15`, while the byte just loaded into `V15` is stored back
unchanged. -/
def choiceEndBlock (i : Nat) (s : PtState) : PtState :=
  let b := s.choices.getD i 0
  { s with v15b := b, w15 := s.w15 ||| 1, choices := s.choices.set i b }

/-- `PointAssembler::build_min_reg_reg_choice` (aarch64), translated
instruction by instruction: `ldr b15` loads the choice byte into SIMD
`V15`, `ands w15, w15, #1` tests the general-purpose `w15`, and `b.eq`
branches to the comparison arm when that result is zero; the ambiguous arm
runs `fmin inout, inout, inout`; the left/right arms write `V15`'s byte to
the simplify pointer. -/
def buildMinRegRegChoice (arg : F) (i bit : Nat) (s0 : PtState) : PtState :=
  let s1 := { s0 with v15b := s0.choices.getD i 0 }
  let w := s1.w15 &&& 1
  let s2 := { s1 with w15 := w }
  if w ≠ 0 then
    choiceEndBlock i { s2 with value := arg }
  else if F.flt s2.value arg then
    choiceEndBlock i { s2 with w15 := 1, simplifyB := s2.v15b }
  else if F.flt arg s2.value then
    choiceEndBlock i (setChoiceExclusive i bit
      { s2 with w15 := 1, simplifyB := s2.v15b, value := arg })
  else
    choiceEndBlock i (setChoiceBit i bit
      { s2 with value := F.fmin s2.value s2.value })

/-- `PointAssembler::build_max_reg_reg_choice` (aarch64), mirroring the min
version with `fmax inout, inout, inout` in the ambiguous arm. -/
def buildMaxRegRegChoice (arg : F) (i bit : Nat) (s0 : PtState) : PtState :=
  let s1 := { s0 with v15b := s0.choices.getD i 0 }
  let w := s1.w15 &&& 1
  let s2 := { s1 with w15 := w }
  if w ≠ 0 then
    choiceEndBlock i { s2 with value := arg }
  else if F.flt s2.value arg then
    choiceEndBlock i (setChoiceExclusive i bit
      { s2 with w15 := 1, simplifyB := s2.v15b, value := arg })
  else if F.flt arg s2.value then
    choiceEndBlock i { s2 with w15 := 1, simplifyB := s2.v15b }
  else
    choiceEndBlock i (setChoiceBit i bit
      { s2 with value := F.fmax s2.value s2.value })

/-- `PointAssembler::build_copy_reg_reg_choice` (aarch64): asserts
`choice.bit == 1`, copies the argument register, sets general-purpose `w15`
to 3, and stores SIMD `V15`'s low byte to the choice slot. -/
def buildCopyRegRegChoice (arg : F) (i bit : Nat) (s : PtState) :
    Option PtState :=
  if bit = 1 then
    some { s with value := arg, w15 := 3, choices := s.choices.set i s.v15b }
  else none

/-- `PointAssembler::build_copy_reg_mem_choice` (aarch64): the same
choice-slot store, then `build_store` writes the argument to memory. -/
def buildCopyRegMemChoice (outMem : Nat) (arg : F) (i bit : Nat)
    (s : PtState) : Option PtState :=
  if bit = 1 then
    some { s with w15 := 3, choices := s.choices.set i s.v15b,
                  mem := s.mem.set outMem arg }
  else none

/-- C1: the claim fails on the x86_64 backend.  With `lhs = [1, NaN]`,
`rhs = [2, 3]` and a prior choice byte holding `CHOICE_LEFT`, the NaN arm of
`IntervalAssembler::build_min` (x86_64) ORs `CHOICE_BOTH` into `ax` but then
clobbers `ax` with `mov eax, NAN`, storing 0 over the choice half-word
instead of `CHOICE_LEFT ||| CHOICE_BOTH = 6`, and it returns `[NaN, NaN]`
rather than the componentwise minimum.  The aarch64 twin at the same input
ORs `CHOICE_BOTH` into the byte and returns the componentwise `fmin`, as the
claim states. -/
theorem intervalMin_x86_nan_clobbers_choice :
    (buildMinX86 ⟨F.fin 1, F.nan⟩ ⟨F.fin 2, F.fin 3⟩ CHOICE_LEFT false).ax
        = 0 ∧
    (buildMinX86 ⟨F.fin 1, F.nan⟩ ⟨F.fin 2, F.fin 3⟩ CHOICE_LEFT false).out
        = ⟨F.nan, F.nan⟩ ∧
    CHOICE_LEFT ||| CHOICE_BOTH = 6 ∧
    (buildMinA64 ⟨F.fin 1, F.nan⟩ ⟨F.fin 2, F.fin 3⟩ CHOICE_LEFT false).choice
        = 6 ∧
    (buildMinA64 ⟨F.fin 1, F.nan⟩ ⟨F.fin 2, F.fin 3⟩ CHOICE_LEFT false).out
        = ⟨F.fmin (F.fin 1) (F.fin 2), F.fmin F.nan (F.fin 3)⟩ ∧
    (buildMaxX86 ⟨F.fin 1, F.nan⟩ ⟨F.fin 2, F.fin 3⟩ CHOICE_LEFT false).ax
        = 0 := by decide

/-- Initial machine state for the point-evaluator counterexamples: output
slot holds 5.0, stale `w15 = 0`, stale `V15` byte 0, one choice byte equal
to 0 (has-value bit clear), simplify byte 0, no memory slots. -/
def ptS0 : PtState := ⟨F.fin 5, 0, 0, [0], 0, []⟩

/-- C2: the claim fails on the code.  The emitted sequence loads the choice
byte with `ldr b15` (into SIMD `V15`) but tests and updates general-purpose
`w15`, and the trailing block stores the reloaded byte back unchanged.  With
the choice byte 0 (has-value clear), output slot 5.0 and operand 7.0, the
code leaves the output slot at 5.0 instead of writing the operand, and bit 0
of the choice byte stays clear afterwards (for stale `w15` even or odd, and
for max as well as min). -/
theorem pointChoice_hasValue_bit_divergence :
    (buildMinRegRegChoice (F.fin 7) 0 1 ptS0).value = F.fin 5 ∧
    ((buildMinRegRegChoice (F.fin 7) 0 1 ptS0).choices.getD 0 0) &&& 1
        = 0 ∧
    ((buildMinRegRegChoice (F.fin 7) 0 1
        { ptS0 with w15 := 1 }).choices.getD 0 0) &&& 1 = 0 ∧
    ((buildMaxRegRegChoice (F.fin 7) 0 1 ptS0).choices.getD 0 0) &&& 1
        = 0 ∧
    ((buildMaxRegRegChoice (F.fin 7) 0 1
        { ptS0 with w15 := 1 }).choices.getD 0 0) &&& 1 = 0 := by decide

/-- Machine state for the copy-with-choice counterexample: stale `V15` byte
0, one choice byte holding 5, one memory slot. -/
def ptS1 : PtState := ⟨F.fin 5, 0, 0, [5], 0, [F.fin 0]⟩

/-- C10: the claim fails on the code.  `build_copy_reg_reg_choice` writes 3
to general-purpose `w15` but then stores SIMD `V15`'s low byte with
`str b15`, so the choice slot receives the stale `V15` byte (here 0), not 3;
the same store appears in `build_copy_reg_mem_choice`.  The bit-position
assumption is real: both functions assert `choice.bit == 1`. -/
theorem pointCopyChoice_stores_stale_byte :
    buildCopyRegRegChoice (F.fin 9) 0 1 ptS1 =
      some ⟨F.fin 9, 3, 0, [0], 0, [F.fin 0]⟩ ∧
    ((buildCopyRegRegChoice (F.fin 9) 0 1 ptS1).map
        (fun s => s.choices.getD 0 0)) ≠ some 3 ∧
    buildCopyRegMemChoice 0 (F.fin 9) 0 1 ptS1 =
      some ⟨F.fin 5, 3, 0, [0], 0, [F.fin 9]⟩ ∧
    buildCopyRegRegChoice (F.fin 9) 0 2 ptS1 = none := by decide

/-- Evaluation of the aarch64 abs assembler on a numeric interval. -/
theorem buildAbsA64_eval (a b : ℚ) :
    buildAbsA64 ⟨F.fin a, F.fin b⟩ =
      if b ≤ 0 then ⟨F.fin |b|, F.fin |a|⟩
      else if a ≤ 0 then ⟨F.fin 0, F.fin (max (max |a| |b|) 0)⟩
      else ⟨F.fin |a|, F.fin |b|⟩ := by
  simp [buildAbsA64, F.fle, F.fabs, F.fmaxnm]

/-- Evaluation of the x86_64 abs assembler on a numeric interval. -/
theorem buildAbsX86_eval (a b : ℚ) :
    buildAbsX86 ⟨F.fin a, F.fin b⟩ =
      if b < 0 then ⟨F.fin (-b), F.fin (-a)⟩
      else if a < 0 then
        (if |a| < |b| then ⟨F.fin 0, F.fin |b|⟩ else ⟨F.fin 0, F.fin |a|⟩)
      else ⟨F.fin a, F.fin b⟩ := by
  simp [buildAbsX86, F.flt, F.fabs, F.fneg]

/-- C3: interval Abs on both backends follows the claimed three cases on
any well-formed numeric interval `[a, b]` with `a ≤ b`: it returns `[a, b]`
when `a ≥ 0`, `[-b, -a]` when `b ≤ 0`, and `[0, max (-a) b]` when the
interval straddles zero. -/
theorem intervalAbs_cases (a b : ℚ) (hab : a ≤ b) :
    (0 ≤ a →
      buildAbsA64 ⟨F.fin a, F.fin b⟩ = ⟨F.fin a, F.fin b⟩ ∧
      buildAbsX86 ⟨F.fin a, F.fin b⟩ = ⟨F.fin a, F.fin b⟩) ∧
    (b ≤ 0 →
      buildAbsA64 ⟨F.fin a, F.fin b⟩ = ⟨F.fin (-b), F.fin (-a)⟩ ∧
      buildAbsX86 ⟨F.fin a, F.fin b⟩ = ⟨F.fin (-b), F.fin (-a)⟩) ∧
    (a < 0 → 0 < b →
      buildAbsA64 ⟨F.fin a, F.fin b⟩ = ⟨F.fin 0, F.fin (max (-a) b)⟩ ∧
      buildAbsX86 ⟨F.fin a, F.fin b⟩ = ⟨F.fin 0, F.fin (max (-a) b)⟩) := by
  rw [buildAbsA64_eval, buildAbsX86_eval]
  refine ⟨fun ha => ⟨?_, ?_⟩, fun hb => ⟨?_, ?_⟩, fun ha hb => ⟨?_, ?_⟩⟩
  · by_cases hb0 : b ≤ 0
    · have ha0 : a = 0 := le_antisymm (hab.trans hb0) ha
      have hb0e : b = 0 := le_antisymm hb0 (ha0 ▸ hab)
      simp [ha0, hb0e]
    · rw [if_neg hb0]
      by_cases ha0 : a ≤ 0
      · have ha0e : a = 0 := le_antisymm ha0 ha
        have hbp : (0:ℚ) < b := lt_of_not_le hb0
        rw [if_pos ha0, ha0e]
        simp [abs_of_pos hbp, le_of_lt hbp]
      · have hap : (0:ℚ) < a := lt_of_not_le ha0
        rw [if_neg ha0, abs_of_pos hap, abs_of_pos (hap.trans_le hab)]
  · rw [if_neg (not_lt.mpr (ha.trans hab)), if_neg (not_lt.mpr ha)]
  · rw [if_pos hb, abs_of_nonpos hb, abs_of_nonpos (hab.trans hb)]
  · by_cases hbs : b < 0
    · rw [if_pos hbs]
    · have hbe : b = 0 := le_antisymm hb (not_lt.mp hbs)
      rw [if_neg hbs]
      by_cases has : a < 0
      · have h1 : |b| = 0 := by rw [hbe]; exact abs_zero
        have h2 : |a| = -a := abs_of_neg has
        rw [if_pos has, if_neg (by rw [h1, h2]; linarith)]
        rw [h2, hbe]
        norm_num
      · have hae : a = 0 := le_antisymm (hab.trans hb) (not_lt.mp has)
        rw [if_neg has]
        simp [hae, hbe]
  · rw [if_neg (not_le.mpr hb), if_pos ha.le,
        abs_of_neg ha, abs_of_pos hb]
    have hna : (0:ℚ) ≤ -a := by linarith
    rw [max_eq_left (le_max_of_le_left hna)]
  · rw [if_neg (not_lt.mpr hb.le), if_pos ha,
        abs_of_neg ha, abs_of_pos hb]
    by_cases hc : -a < b
    · rw [if_pos hc, max_eq_right hc.le]
    · rw [if_neg hc, max_eq_left (not_lt.mp hc)]

/-- C3 witness: the E3 scenario, `abs` of `X = [-6, 5]`, evaluates to
`[0, 6]` on both backends, by the general case theorem. -/
theorem intervalAbs_E3 :
    buildAbsA64 ⟨F.fin (-6), F.fin 5⟩ = ⟨F.fin 0, F.fin 6⟩ ∧
    buildAbsX86 ⟨F.fin (-6), F.fin 5⟩ = ⟨F.fin 0, F.fin 6⟩ := by
  have h := (intervalAbs_cases (-6) 5 (by norm_num)).2.2
    (by norm_num) (by norm_num)
  have e : max (-(-6:ℚ)) 5 = 6 := by decide
  rw [e] at h
  exact h

/-- The sqrt model evaluates to 0 at 0. -/
theorem fsqrt_zero : F.fsqrt (F.fin 0) = F.fin 0 := by
  have h0 : natSqrtM 0 = 0 := by decide
  have h1 : natSqrtM 1 = 1 := by decide
  norm_num [F.fsqrt, ratSqrt, h0, h1]

/-- The sqrt model evaluates to 2 at 4. -/
theorem fsqrt_four : F.fsqrt (F.fin 4) = F.fin 2 := by
  have h4 : natSqrtM (Int.toNat 4) = 2 := by decide
  have h1 : natSqrtM 1 = 1 := by decide
  norm_num [F.fsqrt, ratSqrt, h4, h1]

/-- C4: the claim fails on the aarch64 backend.  For `X = [-1, 0]` — lower
bound negative, upper bound non-negative — the aarch64 `build_sqrt` tests
`upper ≤ 0` with `fcmle` (its comment says `upper < 0`) and returns
`[NaN, NaN]`, while the x86_64 twin uses a strict `comiss` test and returns
`[0, sqrt 0] = [0, 0]` as the claim requires.  The E4 scenario
(`X = [-1, 4]` gives `[0, 2]`) holds on both backends. -/
theorem intervalSqrt_clamp_divergence :
    buildSqrtA64 ⟨F.fin (-1), F.fin 0⟩ = ⟨F.nan, F.nan⟩ ∧
    buildSqrtX86 ⟨F.fin (-1), F.fin 0⟩ = ⟨F.fin 0, F.fin 0⟩ ∧
    buildSqrtA64 ⟨F.fin (-1), F.fin 4⟩ = ⟨F.fin 0, F.fin 2⟩ ∧
    buildSqrtX86 ⟨F.fin (-1), F.fin 4⟩ = ⟨F.fin 0, F.fin 2⟩ := by
  refine ⟨?_, ?_, ?_, ?_⟩
  · norm_num [buildSqrtA64, F.fle]
  · norm_num [buildSqrtX86, F.flt, fsqrt_zero]
  · norm_num [buildSqrtA64, F.fle, fsqrt_four]
  · norm_num [buildSqrtX86, F.flt, fsqrt_four]

/-- Unary opcodes of the expression DAG (`Context`). -/
inductive UnOp where
  | neg
  | abs
  | recip
  | sqrt
  | square
deriving DecidableEq, Repr

/-- Binary opcodes of the expression DAG (`Context`). -/
inductive BinOp where
  | add
  | sub
  | mul
  | div
  | bmin
  | bmax
deriving DecidableEq, Repr

/-- A node record of the expression DAG (`context::Op`); children are dense
node indices. -/
inductive NodeOp where
  | input (axis : Nat)
  | varOp (v : Nat)
  | constOp (c : ℚ)
  | unary (op : UnOp) (child : Nat)
  | binary (op : BinOp) (lhs rhs : Nat)
deriving DecidableEq, Repr

/-- `Op::iter_children`. -/
def NodeOp.children : NodeOp → List Nat
  | .input _ => []
  | .varOp _ => []
  | .constOp _ => []
  | .unary _ c => [c]
  | .binary _ l r => [l, r]

/-- The hash-consed context: node `i` is `ops[i]`. -/
structure Ctx where
  ops : List NodeOp
deriving DecidableEq, Repr

/-- `Context::get_op`; out-of-range ids resolve to an inert constant. -/
def Ctx.getOp (ctx : Ctx) (n : Nat) : NodeOp :=
  ctx.ops.getD n (NodeOp.constOp 0)

/-- Children of a node id (empty for out-of-range ids). -/
def Ctx.childrenOf (ctx : Ctx) (n : Nat) : List Nat :=
  (ctx.getOp n).children

/-- Hash-consing well-formedness: every child index is smaller than its
parent, because nodes are interned bottom-up. -/
def Ctx.WF (ctx : Ctx) : Prop :=
  ∀ n ∈ List.range ctx.ops.length, ∀ c ∈ ctx.childrenOf n, c < n

instance (ctx : Ctx) : Decidable ctx.WF := by
  unfold Ctx.WF; infer_instance

/-- In a well-formed context every child index is smaller than its parent
(out-of-range parents have no children at all). -/
theorem Ctx.WF.child {ctx : Ctx} (h : ctx.WF) {n c : Nat}
    (hc : c ∈ ctx.childrenOf n) : c < n := by
  by_cases hn : n < ctx.ops.length
  · exact h n (List.mem_range.mpr hn) c hc
  · exfalso
    have : ctx.childrenOf n = [] := by
      unfold Ctx.childrenOf Ctx.getOp
      rw [List.getD_eq_default _ _ (le_of_not_lt hn)]
      rfl
    rw [this] at hc
    exact List.not_mem_nil _ hc

/-- Fuel-indexed node weight: 1 plus the sum of the children's weights at
one less fuel (structural recursion, so it evaluates by kernel
reduction). -/
def weightF (ctx : Ctx) : Nat → Nat → Nat
  | 0, _ => 1
  | fuel + 1, n => 1 + ((ctx.childrenOf n).map (weightF ctx fuel)).sum

/-- The node weight from `pick_inline`: on a well-formed context children
have smaller indices, so fuel `n + 1` is always enough. -/
def weight (ctx : Ctx) (n : Nat) : Nat := weightF ctx (n + 1) n

/-- On a well-formed context the fuel does not matter once it exceeds the
node index. -/
theorem weightF_eq (ctx : Ctx) (hwf : ctx.WF) :
    ∀ n fuel fuel2, n < fuel → n < fuel2 →
      weightF ctx fuel n = weightF ctx fuel2 n := by
  intro n
  induction n using Nat.strong_induction_on with
  | _ n ih =>
    intro fuel fuel2 h1 h2
    rcases fuel with _ | f
    · omega
    rcases fuel2 with _ | f2
    · omega
    simp only [weightF]
    congr 1
    refine congrArg List.sum (List.map_congr_left ?_)
    intro c hc
    have hcn : c < n := hwf.child hc
    exact ih c hcn f f2 (by omega) (by omega)

/-- On a well-formed context the weight satisfies the recurrence from the
spec: 1 plus the sum of the children's weights. -/
theorem weight_eq (ctx : Ctx) (hwf : ctx.WF) (n : Nat) :
    weight ctx n = 1 + ((ctx.childrenOf n).map (weight ctx)).sum := by
  unfold weight
  simp only [weightF]
  congr 1
  refine congrArg List.sum (List.map_congr_left ?_)
  intro c hc
  exact weightF_eq ctx hwf c n (c + 1) (hwf.child hc) (Nat.lt_succ_self c)

/-- Every node has weight at least 1. -/
theorem weight_pos (ctx : Ctx) (n : Nat) : 1 ≤ weight ctx n := by
  unfold weight
  simp only [weightF]
  omega

/-- On a well-formed context a child weighs strictly less than its parent. -/
theorem weight_child_lt (ctx : Ctx) (hwf : ctx.WF) {n c : Nat}
    (hc : c ∈ ctx.childrenOf n) : weight ctx c < weight ctx n := by
  rw [weight_eq ctx hwf n]
  have : weight ctx c ≤ ((ctx.childrenOf n).map (weight ctx)).sum :=
    List.le_sum_of_mem (List.mem_map_of_mem (weight ctx) hc)
  omega

/-- An SSA operand: a register slot named by its node, or an immediate
folded from a `Const` node. -/
inductive SsaArg where
  | reg (n : Nat)
  | imm (c : ℚ)
deriving DecidableEq, Repr

/-- An emitted SSA operation. -/
inductive SsaTapeOp where
  | input (out axis : Nat)
  | varLoad (out v : Nat)
  | unary (out : Nat) (op : UnOp) (arg : SsaArg)
  | binary (out : Nat) (op : BinOp) (lhs rhs : SsaArg)
deriving DecidableEq, Repr

/-- Modelled from the spec: operand resolution of `crate::ssa::Builder`
(outside `src/`): a `Const` child becomes an immediate operand, anything
else a register operand. -/
def ssaResolve (ctx : Ctx) (n : Nat) : SsaArg :=
  match ctx.getOp n with
  | .constOp c => .imm c
  | _ => .reg n

/-- True when the node is a `Const` (such nodes produce no op). -/
def isConstNode (ctx : Ctx) (n : Nat) : Bool :=
  match ctx.getOp n with
  | .constOp _ => true
  | _ => false

/-- Modelled from the spec: `crate::ssa::Builder::step` (outside `src/`)
emits one SsaOp per non-constant node, embedding `Const` operands as
immediates; a `Const` node emits nothing. -/
def ssaEmit (ctx : Ctx) (n : Nat) : List SsaTapeOp :=
  match ctx.getOp n with
  | .constOp _ => []
  | .input a => [.input n a]
  | .varOp v => [.varLoad n v]
  | .unary op c => [.unary n op (ssaResolve ctx c)]
  | .binary op l r => [.binary n op (ssaResolve ctx l) (ssaResolve ctx r)]

/-- The SSA tape produced by walking the ordered group nodes (`buildy` runs
one `step` per node of every group, in order). -/
def ssaBuild (ctx : Ctx) (nodes : List Nat) : List SsaTapeOp :=
  (nodes.map (ssaEmit ctx)).flatten

/-- Each node emits one op, or none exactly when it is a `Const`. -/
theorem ssaEmit_length (ctx : Ctx) (n : Nat) :
    (ssaEmit ctx n).length = if isConstNode ctx n then 0 else 1 := by
  unfold ssaEmit isConstNode
  cases ctx.getOp n <;> simp

/-- C8: for every context and every list of groups, the number of SsaOps
emitted by the SSA builder over the flattened groups equals the number of
non-Const nodes in all groups combined (the assertion checked in
`buildy`). -/
theorem ssa_op_count (ctx : Ctx) (groups : List (List Nat)) :
    (ssaBuild ctx groups.flatten).length
      = (groups.flatten.filter (fun n => ! isConstNode ctx n)).length := by
  induction groups.flatten with
  | nil => rfl
  | cons hd tl ih =>
    simp only [ssaBuild, List.map_cons, List.flatten_cons, List.length_append,
      List.filter_cons]
    rw [ssaEmit_length]
    by_cases hc : isConstNode ctx hd
    · simp [hc, ssaBuild] at ih ⊢
      exact ih
    · simp [hc, ssaBuild] at ih ⊢
      omega

/-- An op of the SSA tape as seen by the register allocator: an output node
and zero, one or two argument nodes. -/
inductive AllocOp where
  | nullary (out : Nat)
  | unary (out arg : Nat)
  | binary (out lhs rhs : Nat)
deriving DecidableEq, Repr

/-- An op of the register-machine tape: `load` and `store` move between a
register and a memory slot; the remaining ops name registers only. -/
inductive RegOp where
  | load (dst mem : Nat)
  | store (mem src : Nat)
  | nullary (out : Nat)
  | unary (out arg : Nat)
  | binary (out lhs rhs : Nat)
deriving DecidableEq, Repr

/-- Where a node's value currently lives during the reverse walk. -/
inductive Slot where
  | reg (r : Nat)
  | mem (m : Nat)
deriving DecidableEq, Repr

/-- Modelled from the spec: the state of the §4.4 reverse-walk register
allocator (`crate::vm::RegisterAllocator` is outside `src/`): bindings from
nodes to slots, the free-register pool, the in-use registers in LRU order
(least recently used last), the free memory slots, the next fresh memory
slot, and the RegOps emitted so far in reverse. -/
structure AllocState where
  binding : Nat → Option Slot
  freeRegs : List Nat
  lru : List Nat
  freeMem : List Nat
  nextMem : Nat
  out : List RegOp

/-- Acquire a memory slot: reuse a released one or take a fresh one. -/
def acquireMem (s : AllocState) : Nat × AllocState :=
  match s.freeMem with
  | m :: rest => (m, { s with freeMem := rest })
  | [] => (s.nextMem, { s with nextMem := s.nextMem + 1 })

/-- Acquire a register: pop the free pool, or evict the least recently used
register to a freshly acquired memory slot, emitting the spill `Store` into
the reversed tape; the degenerate case with no free and no in-use register
hands out register 0. -/
def acquireReg (s : AllocState) : Nat × AllocState :=
  match s.freeRegs with
  | r :: rest => (r, { s with freeRegs := rest })
  | [] =>
    match s.lru.getLast? with
    | some r =>
      let p := acquireMem s
      (r, { p.2 with
              lru := p.2.lru.dropLast,
              binding := fun n =>
                if p.2.binding n = some (Slot.reg r) then some (Slot.mem p.1)
                else p.2.binding n,
              out := RegOp.store p.1 r :: p.2.out })
    | none => (0, s)

/-- Consume the out-node's binding (step 1 of §4.4): a register binding is
taken over as the op's out register; a memory binding acquires a register
and emits the `Store` that, once the tape is flipped, follows the op; an
unbound out just acquires a register. -/
def consumeOut (s : AllocState) (n : Nat) : Nat × AllocState :=
  match s.binding n with
  | some (Slot.reg r) =>
      (r, { s with binding := fun k => if k = n then none else s.binding k,
                   lru := s.lru.erase r })
  | some (Slot.mem m) =>
      let p := acquireReg s
      (p.1, { p.2 with
                binding := fun k => if k = n then none else p.2.binding k,
                freeMem := m :: p.2.freeMem,
                out := RegOp.store m p.1 :: p.2.out })
  | none => acquireReg s

/-- Bind an operand (step 2 of §4.4): reuse a register binding (touching
the LRU), pull a memory binding into a newly-acquired register with a
`Load`, or assign a fresh register at the operand's last forward use. -/
def bindOperand (s : AllocState) (n : Nat) : Nat × AllocState :=
  match s.binding n with
  | some (Slot.reg r) => (r, { s with lru := r :: s.lru.erase r })
  | some (Slot.mem m) =>
      let p := acquireReg s
      (p.1, { p.2 with
                binding := fun k =>
                  if k = n then some (Slot.reg p.1) else p.2.binding k,
                lru := p.1 :: p.2.lru,
                freeMem := m :: p.2.freeMem,
                out := RegOp.load p.1 m :: p.2.out })
  | none =>
      let p := acquireReg s
      (p.1, { p.2 with
                binding := fun k =>
                  if k = n then some (Slot.reg p.1) else p.2.binding k,
                lru := p.1 :: p.2.lru })

/-- Release the out register into the free pool (step 4 of §4.4). -/
def releaseReg (r : Nat) (s : AllocState) : AllocState :=
  { s with freeRegs := r :: s.freeRegs }

/-- Process one SSA op: consume the out binding, bind the operands, emit
the RegOp, release the out register. -/
def allocStep (s : AllocState) (op : AllocOp) : AllocState :=
  match op with
  | .nullary n =>
      let p := consumeOut s n
      releaseReg p.1 { p.2 with out := RegOp.nullary p.1 :: p.2.out }
  | .unary n a =>
      let p := consumeOut s n
      let q := bindOperand p.2 a
      releaseReg p.1 { q.2 with out := RegOp.unary p.1 q.1 :: q.2.out }
  | .binary n a b =>
      let p := consumeOut s n
      let q := bindOperand p.2 a
      let w := bindOperand q.2 b
      releaseReg p.1 { w.2 with out := RegOp.binary p.1 q.1 w.1 :: w.2.out }

/-- Initial allocator state: the root node is pinned to register 0, the
remaining `R - 1` fast registers are free. -/
def allocInit (R root : Nat) : AllocState :=
  { binding := fun n => if n = root then some (Slot.reg 0) else none,
    freeRegs := (List.range R).drop 1,
    lru := [0],
    freeMem := [],
    nextMem := 0,
    out := [] }

/-- Modelled from the spec: the §4.4 allocator, processing the tape one op
at a time and flipping the emitted tape before returning. -/
def allocate (R root : Nat) (ops : List AllocOp) : List RegOp :=
  (ops.foldl allocStep (allocInit R root)).out.reverse

/-- `REGISTER_LIMIT` from `jitfive/src/backend/dynasm.rs` (the JIT uses
SIMD registers v8-v15 and v16-v31); `buildy` passes the same 24 to
`RegisterAllocator::new`. -/
def REGISTER_LIMIT : Nat := 24

/-- All register operands of a RegOp are below the register limit (the
`mem` fields of `load`/`store` are memory slots, not registers). -/
def RegOp.regsBelow (R : Nat) : RegOp → Bool
  | .load dst _ => dst < R
  | .store _ src => src < R
  | .nullary out => out < R
  | .unary out arg => out < R && arg < R
  | .binary out lhs rhs => out < R && lhs < R && rhs < R

/-- The register-bound invariant: every register in the free pool, in the
LRU list, in the bindings, and in the already-emitted ops is below `R`. -/
def AllocInv (R : Nat) (s : AllocState) : Prop :=
  (∀ r ∈ s.freeRegs, r < R) ∧ (∀ r ∈ s.lru, r < R) ∧
  (∀ n r, s.binding n = some (Slot.reg r) → r < R) ∧
  (∀ op ∈ s.out, op.regsBelow R = true)

/-- `acquireMem` leaves every register-related field unchanged. -/
theorem acquireMem_regFields (s : AllocState) :
    (acquireMem s).2.binding = s.binding ∧
    (acquireMem s).2.freeRegs = s.freeRegs ∧
    (acquireMem s).2.lru = s.lru ∧ (acquireMem s).2.out = s.out := by
  unfold acquireMem
  cases s.freeMem <;> simp

/-- `acquireReg` hands out a register below `R` and preserves the
invariant. -/
theorem acquireReg_spec (R : Nat) (hR : 0 < R) (s : AllocState)
    (h : AllocInv R s) :
    (acquireReg s).1 < R ∧ AllocInv R (acquireReg s).2 := by
  obtain ⟨hfree, hlru, hbind, hout⟩ := h
  unfold acquireReg
  cases hfr : s.freeRegs with
  | cons r rest =>
    refine ⟨hfree r (by rw [hfr]; exact List.mem_cons_self r rest), ?_, ?_, ?_, ?_⟩
    · intro x hx
      exact hfree x (by rw [hfr]; exact List.mem_cons_of_mem r hx)
    · exact hlru
    · exact hbind
    · exact hout
  | nil =>
    cases hgl : s.lru.getLast? with
    | some r =>
      have hrlru : r ∈ s.lru := List.mem_of_mem_getLast? hgl
      have hrR : r < R := hlru r hrlru
      obtain ⟨hb, hf, hl, ho⟩ := acquireMem_regFields s
      refine ⟨hrR, ?_, ?_, ?_, ?_⟩
      · simp only [hf]
        exact hfree
      · intro x hx
        simp only [hl] at hx
        exact hlru x (List.dropLast_subset _ hx)
      · intro n x hx
        simp only [hb] at hx
        by_cases hc : s.binding n = some (Slot.reg r)
        · rw [if_pos hc] at hx
          exact absurd hx (by simp)
        · rw [if_neg hc] at hx
          exact hbind n x hx
      · intro op hop
        simp only [ho] at hop
        rcases List.mem_cons.mp hop with he | hm
        · subst he
          simpa [RegOp.regsBelow] using hrR
        · exact hout op hm
    | none => exact ⟨hR, hfree, hlru, hbind, hout⟩

/-- `consumeOut` hands out a register below `R` and preserves the
invariant. -/
theorem consumeOut_spec (R : Nat) (hR : 0 < R) (s : AllocState) (n : Nat)
    (h : AllocInv R s) :
    (consumeOut s n).1 < R ∧ AllocInv R (consumeOut s n).2 := by
  unfold consumeOut
  cases hb : s.binding n with
  | none => exact acquireReg_spec R hR s h
  | some slot =>
    obtain ⟨hfree, hlru, hbind, hout⟩ := h
    cases slot with
    | reg r =>
      refine ⟨hbind n r hb, hfree, ?_, ?_, hout⟩
      · intro x hx
        exact hlru x (List.mem_of_mem_erase hx)
      · intro k x hx
        simp only at hx
        by_cases hk : k = n
        · rw [if_pos hk] at hx
          cases hx
        · rw [if_neg hk] at hx
          exact hbind k x hx
    | mem m =>
      obtain ⟨h1, h2, h3, h4, h5⟩ :=
        And.intro (acquireReg_spec R hR s ⟨hfree, hlru, hbind, hout⟩).1
          (acquireReg_spec R hR s ⟨hfree, hlru, hbind, hout⟩).2
      refine ⟨h1, h2, h3, ?_, ?_⟩
      · intro k x hx
        simp only at hx
        by_cases hk : k = n
        · rw [if_pos hk] at hx
          cases hx
        · rw [if_neg hk] at hx
          exact h4 k x hx
      · intro op hop
        simp only at hop
        rcases List.mem_cons.mp hop with he | hm
        · subst he
          simpa [RegOp.regsBelow] using h1
        · exact h5 op hm

/-- `bindOperand` hands out a register below `R` and preserves the
invariant. -/
theorem bindOperand_spec (R : Nat) (hR : 0 < R) (s : AllocState) (n : Nat)
    (h : AllocInv R s) :
    (bindOperand s n).1 < R ∧ AllocInv R (bindOperand s n).2 := by
  unfold bindOperand
  obtain ⟨hfree, hlru, hbind, hout⟩ := h
  cases hb : s.binding n with
  | none =>
    obtain ⟨h1, h2, h3, h4, h5⟩ :=
      And.intro (acquireReg_spec R hR s ⟨hfree, hlru, hbind, hout⟩).1
        (acquireReg_spec R hR s ⟨hfree, hlru, hbind, hout⟩).2
    refine ⟨h1, h2, ?_, ?_, h5⟩
    · intro x hx
      rcases List.mem_cons.mp hx with he | hm
      · subst he; exact h1
      · exact h3 x hm
    · intro k x hx
      simp only at hx
      by_cases hk : k = n
      · rw [if_pos hk] at hx
        cases hx
        exact h1
      · rw [if_neg hk] at hx
        exact h4 k x hx
  | some slot =>
    cases slot with
    | reg r =>
      have hrR : r < R := hbind n r hb
      refine ⟨hrR, hfree, ?_, hbind, hout⟩
      intro x hx
      rcases List.mem_cons.mp hx with he | hm
      · subst he; exact hrR
      · exact hlru x (List.mem_of_mem_erase hm)
    | mem m =>
      obtain ⟨h1, h2, h3, h4, h5⟩ :=
        And.intro (acquireReg_spec R hR s ⟨hfree, hlru, hbind, hout⟩).1
          (acquireReg_spec R hR s ⟨hfree, hlru, hbind, hout⟩).2
      refine ⟨h1, h2, ?_, ?_, ?_⟩
      · intro x hx
        rcases List.mem_cons.mp hx with he | hm
        · subst he; exact h1
        · exact h3 x hm
      · intro k x hx
        simp only at hx
        by_cases hk : k = n
        · rw [if_pos hk] at hx
          cases hx
          exact h1
        · rw [if_neg hk] at hx
          exact h4 k x hx
      · intro op hop
        simp only at hop
        rcases List.mem_cons.mp hop with he | hm
        · subst he
          simpa [RegOp.regsBelow] using h1
        · exact h5 op hm

/-- One allocator step preserves the invariant. -/
theorem allocStep_inv (R : Nat) (hR : 0 < R) (s : AllocState)
    (op : AllocOp) (h : AllocInv R s) : AllocInv R (allocStep s op) := by
  cases op with
  | nullary n =>
    obtain ⟨h1, h2, h3, h4, h5⟩ :=
      And.intro (consumeOut_spec R hR s n h).1 (consumeOut_spec R hR s n h).2
    refine ⟨?_, h3, h4, ?_⟩
    · intro x hx
      rcases List.mem_cons.mp hx with he | hm
      · subst he; exact h1
      · exact h2 x hm
    · intro o ho
      rcases List.mem_cons.mp ho with he | hm
      · subst he
        simpa [RegOp.regsBelow] using h1
      · exact h5 o hm
  | unary n a =>
    obtain ⟨h1, hs1⟩ := consumeOut_spec R hR s n h
    obtain ⟨h2, hs2⟩ := bindOperand_spec R hR (consumeOut s n).2 a hs1
    obtain ⟨g1, g2, g3, g4⟩ := hs2
    refine ⟨?_, g2, g3, ?_⟩
    · intro x hx
      rcases List.mem_cons.mp hx with he | hm
      · subst he; exact h1
      · exact g1 x hm
    · intro o ho
      rcases List.mem_cons.mp ho with he | hm
      · subst he
        simp [RegOp.regsBelow]
        exact ⟨h1, h2⟩
      · exact g4 o hm
  | binary n a b =>
    obtain ⟨h1, hs1⟩ := consumeOut_spec R hR s n h
    obtain ⟨h2, hs2⟩ := bindOperand_spec R hR (consumeOut s n).2 a hs1
    obtain ⟨h3, hs3⟩ := bindOperand_spec R hR (bindOperand (consumeOut s n).2 a).2 b hs2
    obtain ⟨g1, g2, g3, g4⟩ := hs3
    refine ⟨?_, g2, g3, ?_⟩
    · intro x hx
      rcases List.mem_cons.mp hx with he | hm
      · subst he; exact h1
      · exact g1 x hm
    · intro o ho
      rcases List.mem_cons.mp ho with he | hm
      · subst he
        simp [RegOp.regsBelow]
        exact ⟨⟨h1, h2⟩, h3⟩
      · exact g4 o hm

/-- The initial state satisfies the invariant. -/
theorem allocInit_inv (R root : Nat) (hR : 0 < R) :
    AllocInv R (allocInit R root) := by
  refine ⟨?_, ?_, ?_, ?_⟩
  · intro r hr
    have := List.mem_range.mp (List.mem_of_mem_drop hr)
    exact this
  · intro r hr
    rcases List.mem_singleton.mp hr with rfl
    exact hR
  · intro n r hb
    simp only [allocInit] at hb
    by_cases hn : n = root
    · rw [if_pos hn] at hb
      cases hb
      exact hR
    · rw [if_neg hn] at hb
      cases hb
  · intro op hop
    cases hop

/-- Folding the allocator over any op list preserves the invariant. -/
theorem allocFold_inv (R : Nat) (hR : 0 < R) (ops : List AllocOp)
    (s : AllocState) (h : AllocInv R s) :
    AllocInv R (ops.foldl allocStep s) := by
  induction ops generalizing s with
  | nil => exact h
  | cons o t ih => exact ih _ (allocStep_inv R hR s o h)

/-- C5: every op in a tape produced by the register allocator (modelled
from §4.4 of the spec) has all register operands strictly below the
register limit, and the JIT family's limit is the fixed
`REGISTER_LIMIT = 24`; values at or above the limit occur only in the
memory-slot fields of `load`/`store`. -/
theorem allocate_regs_below (root : Nat) (ops : List AllocOp) (op : RegOp)
    (hop : op ∈ allocate REGISTER_LIMIT root ops) :
    op.regsBelow REGISTER_LIMIT = true ∧ REGISTER_LIMIT = 24 := by
  refine ⟨?_, rfl⟩
  have hinv := allocFold_inv REGISTER_LIMIT (by decide) ops
    (allocInit REGISTER_LIMIT root)
    (allocInit_inv REGISTER_LIMIT root (by decide))
  exact hinv.2.2.2 op (List.mem_reverse.mp hop)

/-- C5 witness: allocating the single op `binary 2 0 1` with root 2 yields
a tape whose member `binary 0 1 2` has all registers below the limit. -/
theorem allocate_regs_below_witness :
    RegOp.regsBelow REGISTER_LIMIT (RegOp.binary 0 1 2) = true ∧
    REGISTER_LIMIT = 24 :=
  allocate_regs_below 2 [AllocOp.binary 2 0 1] (RegOp.binary 0 1 2)
    (by decide)

/-- A render tile, identified by its pixel corner (`render.rs`). -/
structure Tile where
  cx : Nat
  cy : Nat
deriving DecidableEq, Repr

/-- The root tile list built in `render`: corners `[i * T, j * T]` for all
`i, j < S / T` (image size `S`, tile size `T`). -/
def tilesFor (S T : Nat) : List Tile :=
  ((List.range (S / T)).map (fun i =>
    (List.range (S / T)).map (fun j => Tile.mk (i * T) (j * T)))).flatten

/-- The image index written by the merge loop in `render` for in-tile
offset `(i, j)` of a tile: `x + (S - y - 1) * S` with `x = i + corner.0`
and `y = j + corner.1`. -/
def writeIdx (S : Nat) (t : Tile) (i j : Nat) : Nat :=
  (i + t.cx) + (S - (j + t.cy) - 1) * S

/-- Merge one tile's worker data into the image, mirroring the nested
`j` / `i` loops of the merge in `render` (`data[i + j * T]` is modelled by
the lookup function `dataFor`). -/
def mergeTile {α : Type} (S T : Nat) (dataFor : Tile → Nat → α)
    (img : List (Option α)) (t : Tile) : List (Option α) :=
  (List.range T).foldl (fun im j =>
    (List.range T).foldl (fun im2 i =>
      im2.set (writeIdx S t i j) (some (dataFor t (i + j * T)))) im) img

/-- The final image assembled in `render`: start from `S * S` empty pixels
and merge every tile's data. -/
def renderMerge {α : Type} (S T : Nat) (dataFor : Tile → Nat → α) :
    List (Option α) :=
  (tilesFor S T).foldl (mergeTile S T dataFor) (List.replicate (S * S) none)

/-- A `getD` that is `some` implies the index is in range. -/
theorem getD_isSome_lt {α : Type} (l : List (Option α)) (p : Nat)
    (h : (l.getD p none).isSome = true) : p < l.length := by
  by_contra hc
  rw [List.getD_eq_default _ _ (le_of_not_lt hc)] at h
  cases h

/-- Setting an in-range index to `some` makes `getD` there `some`. -/
theorem getD_set_self {α : Type} (l : List (Option α)) (p : Nat) (v : α)
    (hp : p < l.length) : (l.set p (some v)).getD p none = some v := by
  rw [List.getD_eq_getElem?_getD, List.getElem?_set_self (by simpa using hp)]
  rfl

/-- Setting any index to `some` preserves `some`-ness at every index. -/
theorem getD_set_preserve {α : Type} (l : List (Option α)) (p q : Nat)
    (v : α) (h : (l.getD p none).isSome = true) :
    ((l.set q (some v)).getD p none).isSome = true := by
  have hp : p < l.length := getD_isSome_lt l p h
  by_cases hpq : p = q
  · subst hpq
    rw [getD_set_self l p v hp]
    rfl
  · rw [List.getD_eq_getElem?_getD, List.getElem?_set_ne (fun he => hpq he.symm)]
    rw [List.getD_eq_getElem?_getD] at h
    exact h

/-- A fold whose steps preserve `some`-ness at `p` preserves it overall. -/
theorem foldl_isSome_mono {α β : Type}
    (step : List (Option α) → β → List (Option α)) (l : List β) (p : Nat)
    (hmono : ∀ im x, ((im.getD p none).isSome = true) →
      (((step im x).getD p none).isSome = true)) :
    ∀ img, ((img.getD p none).isSome = true) →
      (((l.foldl step img).getD p none).isSome = true) := by
  induction l with
  | nil => intro img h; exact h
  | cons hd tl ih =>
    intro img h
    exact ih (step img hd) (hmono img hd h)

/-- A fold whose steps preserve the length preserves it overall. -/
theorem foldl_length_eq {α β : Type}
    (step : List (Option α) → β → List (Option α)) (l : List β)
    (hlen : ∀ im x, (step im x).length = im.length) :
    ∀ img, ((l.foldl step img).length = img.length) := by
  induction l with
  | nil => intro img; rfl
  | cons hd tl ih =>
    intro img
    rw [List.foldl_cons, ih (step img hd), hlen]

/-- If some element of the fold list establishes `some`-ness at `p` (on any
image of the right length), and every step preserves length and
`some`-ness, then the fold result is `some` at `p`. -/
theorem foldl_isSome_establish {α β : Type}
    (step : List (Option α) → β → List (Option α)) (l : List β) (p : Nat)
    (x : β) (hx : x ∈ l) (L : Nat)
    (hlen : ∀ im y, (step im y).length = im.length)
    (hmono : ∀ im y, ((im.getD p none).isSome = true) →
      (((step im y).getD p none).isSome = true))
    (hest : ∀ im : List (Option α), im.length = L →
      (((step im x).getD p none).isSome = true)) :
    ∀ img, img.length = L →
      (((l.foldl step img).getD p none).isSome = true) := by
  induction l with
  | nil => cases hx
  | cons hd tl ih =>
    intro img hL
    rcases List.mem_cons.mp hx with rfl | hmem
    · exact foldl_isSome_mono step tl p hmono (step img x) (hest img hL)
    · exact ih hmem (step img hd) (by rw [hlen]; exact hL)

/-- Uniqueness of the division decomposition `x = i + a * T` with
`i < T`. -/
theorem decomp_unique (T x a i : Nat) (hT : 0 < T) (hi : i < T)
    (he : i + a * T = x) : a = x / T ∧ i = x % T := by
  subst he
  constructor
  · rw [Nat.add_mul_div_right _ _ hT, Nat.div_eq_of_lt hi, Nat.zero_add]
  · rw [Nat.add_mul_mod_self_right, Nat.mod_eq_of_lt hi]

/-- Membership in the root tile list. -/
theorem mem_tilesFor (S T : Nat) (t : Tile) :
    t ∈ tilesFor S T ↔
      ∃ a, a < S / T ∧ ∃ b, b < S / T ∧ t = ⟨a * T, b * T⟩ := by
  simp only [tilesFor, List.mem_flatten, List.mem_map, List.mem_range]
  constructor
  · rintro ⟨l, ⟨a, hak, rfl⟩, hm⟩
    rcases List.mem_map.mp hm with ⟨b, hbm, rfl⟩
    exact ⟨a, hak, b, List.mem_range.mp hbm, rfl⟩
  · rintro ⟨a, hak, b, hbk, rfl⟩
    exact ⟨(List.range (S / T)).map (fun j => Tile.mk (a * T) (j * T)),
      ⟨a, hak, rfl⟩, List.mem_map.mpr ⟨b, List.mem_range.mpr hbk, rfl⟩⟩

/-- C9: under the asserted divisibility preconditions of `render`, the
pre-computed tiles partition the image pixels: every pixel index below
`S * S` is written by exactly one (tile, in-tile offset) pair of the merge
loop, and after merging every tile the image buffer is `Some` everywhere,
so the final `Option::unwrap` calls cannot panic. -/
theorem render_tiles_partition {α : Type} (S T k sub : Nat)
    (dataFor : Tile → Nat → α)
    (hT : 0 < T) (hS : S = k * T) (hsub : 0 < sub) (hts : T % sub = 0)
    (hs4 : sub % 4 = 0) (p : Nat) (hp : p < S * S) :
    (∃! w : Tile × Nat × Nat,
        w.1 ∈ tilesFor S T ∧ w.2.1 < T ∧ w.2.2 < T ∧
        writeIdx S w.1 w.2.1 w.2.2 = p) ∧
    ((renderMerge S T dataFor).getD p none).isSome = true := by
  have hS0 : 0 < S := by
    rcases Nat.eq_zero_or_pos S with h0 | h0
    · rw [h0] at hp
      cases hp
    · exact h0
  have hk : S / T = k := by rw [hS, Nat.mul_div_cancel _ hT]
  obtain ⟨m, hm⟩ : ∃ n, n = p / S := ⟨_, rfl⟩
  obtain ⟨x, hxe⟩ : ∃ n, n = p % S := ⟨_, rfl⟩
  have hmS : m < S := by rw [hm]; exact (Nat.div_lt_iff_lt_mul hS0).mpr hp
  have hxS : x < S := by rw [hxe]; exact Nat.mod_lt _ hS0
  have hpx : x + m * S = p := by rw [hxe, hm]; exact Nat.mod_add_div' p S
  obtain ⟨y, hye⟩ : ∃ n, n = S - 1 - m := ⟨_, rfl⟩
  have hyS : y < S := by omega
  have hmy : S - y - 1 = m := by omega
  obtain ⟨a, hae⟩ : ∃ n, n = x / T := ⟨_, rfl⟩
  obtain ⟨i, hie⟩ : ∃ n, n = x % T := ⟨_, rfl⟩
  obtain ⟨b, hbe⟩ : ∃ n, n = y / T := ⟨_, rfl⟩
  obtain ⟨j, hje⟩ : ∃ n, n = y % T := ⟨_, rfl⟩
  have hiT : i < T := by rw [hie]; exact Nat.mod_lt _ hT
  have hjT : j < T := by rw [hje]; exact Nat.mod_lt _ hT
  have hxa : i + a * T = x := by rw [hie, hae]; exact Nat.mod_add_div' x T
  have hyb : j + b * T = y := by rw [hje, hbe]; exact Nat.mod_add_div' y T
  have hak : a < k := by
    rw [hae]
    exact (Nat.div_lt_iff_lt_mul hT).mpr (by rw [← hS]; exact hxS)
  have hbk : b < k := by
    rw [hbe]
    exact (Nat.div_lt_iff_lt_mul hT).mpr (by rw [← hS]; exact hyS)
  have hwidx : writeIdx S ⟨a * T, b * T⟩ i j = p := by
    unfold writeIdx
    simp only
    rw [hxa, hyb, hmy]
    exact hpx
  have htmem : Tile.mk (a * T) (b * T) ∈ tilesFor S T := by
    rw [mem_tilesFor]
    exact ⟨a, by omega, b, by omega, rfl⟩
  constructor
  · refine ⟨⟨⟨a * T, b * T⟩, i, j⟩, ⟨htmem, hiT, hjT, hwidx⟩, ?_⟩
    rintro ⟨⟨tcx, tcy⟩, i2, j2⟩ ⟨hmem, hi2, hj2, hw⟩
    dsimp only at hmem hi2 hj2 hw
    rw [mem_tilesFor] at hmem
    obtain ⟨a2, ha2, b2, hb2, heq⟩ := hmem
    rw [hk] at ha2 hb2
    injection heq with h1 h2
    subst h1
    subst h2
    unfold writeIdx at hw
    dsimp only at hw
    have hx2 : i2 + a2 * T < S := by
      have h1 : i2 + a2 * T < (a2 + 1) * T := by
        rw [Nat.add_mul, Nat.one_mul]
        omega
      have h2 : (a2 + 1) * T ≤ k * T := Nat.mul_le_mul_right T (by omega)
      rw [hS]
      omega
    have hy2 : j2 + b2 * T < S := by
      have h1 : j2 + b2 * T < (b2 + 1) * T := by
        rw [Nat.add_mul, Nat.one_mul]
        omega
      have h2 : (b2 + 1) * T ≤ k * T := Nat.mul_le_mul_right T (by omega)
      rw [hS]
      omega
    have hu1 := decomp_unique S p (S - (j2 + b2 * T) - 1) (i2 + a2 * T)
      hS0 hx2 hw
    have hy2e : j2 + b2 * T = y := by omega
    have hx2e : i2 + a2 * T = x := by rw [hu1.2, hxe]
    have hu2 := decomp_unique T x a2 i2 hT hi2 hx2e
    have hu3 := decomp_unique T y b2 j2 hT hj2 hy2e
    have hae2 : a2 = a := by rw [hu2.1, hae]
    have hie2 : i2 = i := by rw [hu2.2, hie]
    have hbe2 : b2 = b := by rw [hu3.1, hbe]
    have hje2 : j2 = j := by rw [hu3.2, hje]
    subst hae2
    subst hie2
    subst hbe2
    subst hje2
    rfl
  · have hsetpre : ∀ (im2 : List (Option α)) (q : Nat) (v : α),
        ((im2.getD p none).isSome = true) →
        (((im2.set q (some v)).getD p none).isSome = true) :=
      fun im2 q v h => getD_set_preserve im2 p q v h
    have hrowlen : ∀ (t : Tile) (j2 : Nat) (im : List (Option α)),
        ((List.range T).foldl (fun im2 i2 =>
          im2.set (writeIdx S t i2 j2)
            (some (dataFor t (i2 + j2 * T)))) im).length = im.length := by
      intro t j2 im
      exact foldl_length_eq _ _ (fun im2 x2 => List.length_set _ _ _) im
    have hrowmono : ∀ (t : Tile) (j2 : Nat) (im : List (Option α)),
        ((im.getD p none).isSome = true) →
        ((((List.range T).foldl (fun im2 i2 =>
            im2.set (writeIdx S t i2 j2)
              (some (dataFor t (i2 + j2 * T)))) im).getD p none).isSome
          = true) := by
      intro t j2 im h
      exact foldl_isSome_mono _ _ p
        (fun im2 x2 h2 => getD_set_preserve im2 p _ _ h2) im h
    have htilelen : ∀ (im : List (Option α)) (t : Tile),
        (mergeTile S T dataFor im t).length = im.length := by
      intro im t
      exact foldl_length_eq _ _ (fun im2 j2 => hrowlen t j2 im2) im
    have htilemono : ∀ (im : List (Option α)) (t : Tile),
        ((im.getD p none).isSome = true) →
        (((mergeTile S T dataFor im t).getD p none).isSome = true) := by
      intro im t h
      exact foldl_isSome_mono _ _ p (fun im2 j2 h2 => hrowmono t j2 im2 h2)
        im h
    have htileest : ∀ im : List (Option α), im.length = S * S →
        (((mergeTile S T dataFor im ⟨a * T, b * T⟩).getD p none).isSome
          = true) := by
      intro im hlen
      unfold mergeTile
      refine foldl_isSome_establish _ (List.range T) p j
        (List.mem_range.mpr hjT) (S * S)
        (fun im2 j2 => hrowlen ⟨a * T, b * T⟩ j2 im2)
        (fun im2 j2 h2 => hrowmono ⟨a * T, b * T⟩ j2 im2 h2)
        ?_ im hlen
      intro im2 hlen2
      refine foldl_isSome_establish _ (List.range T) p i
        (List.mem_range.mpr hiT) (S * S)
        (fun im3 x2 => List.length_set _ _ _)
        (fun im3 x2 h3 => getD_set_preserve im3 p _ _ h3)
        ?_ im2 hlen2
      intro im3 hlen3
      rw [hwidx]
      rw [getD_set_self im3 p _ (by rw [hlen3]; exact hp)]
      rfl
    exact foldl_isSome_establish _ (tilesFor S T) p ⟨a * T, b * T⟩ htmem
      (S * S) htilelen htilemono htileest
      (List.replicate (S * S) none) (by simp)

/-- C9 witness: with image size 8, tile size 4, subtile size 4, every pixel
of the merged image is present; shown here for pixel 0. -/
theorem render_tiles_partition_witness :
    ((renderMerge 8 4 (fun _ _ => (0 : Nat))).getD 0 none).isSome = true :=
  (render_tiles_partition 8 4 2 4 (fun _ _ => (0 : Nat)) (by decide)
    (by decide) (by decide) (by decide) (by decide) 0 (by decide)).2

/-- Reachability in the expression DAG through children edges. -/
inductive Reaches (ctx : Ctx) : Nat → Nat → Prop
  | refl (n : Nat) : Reaches ctx n n
  | step {n m c : Nat} : Reaches ctx n m → c ∈ ctx.childrenOf m →
      Reaches ctx n c

/-- The two-state marker of the explicit work stack in `pick_inline`. -/
inductive Act where
  | down
  | up
deriving DecidableEq, Repr

/-- The `pick_inline` work-stack loop of `chunky/mod.rs`, with explicit
fuel: pop an entry, skip it when the node already has a weight; on `Down`
push the `Up` entry and then the children as `Down` entries (the list head
is the top of the stack); on `Up` record
`1 + sum of the recorded children weights` and add the node to the inline
list when the weight is at most `W`. -/
def pickInlineLoop (ctx : Ctx) (W : Nat) :
    Nat → List (Act × Nat) → List (Nat × Nat) → List Nat →
    Option (List (Nat × Nat) × List Nat)
  | 0, _, _, _ => none
  | _ + 1, [], weights, inline => some (weights, inline)
  | fuel + 1, (act, n) :: rest, weights, inline =>
    if (weights.lookup n).isSome then
      pickInlineLoop ctx W fuel rest weights inline
    else
      match act with
      | .down =>
          pickInlineLoop ctx W fuel
            (((ctx.childrenOf n).map (fun c => (Act.down, c))).reverse
              ++ (Act.up, n) :: rest) weights inline
      | .up =>
          pickInlineLoop ctx W fuel rest
            ((n, 1 + ((ctx.childrenOf n).map
              (fun c => (weights.lookup c).getD 0)).sum) :: weights)
            (if 1 + ((ctx.childrenOf n).map
              (fun c => (weights.lookup c).getD 0)).sum ≤ W
             then n :: inline else inline)

/-- Fuel that suffices on a well-formed context. -/
def pickFuel (ctx : Ctx) (root : Nat) : Nat := 2 * weight ctx root + 1

/-- `pick_inline` from `chunky/mod.rs`: run the work-stack loop from the
root; `buildy` passes the threshold 7. -/
def pickInline (ctx : Ctx) (root : Nat) (W : Nat) :
    List (Nat × Nat) × List Nat :=
  (pickInlineLoop ctx W (pickFuel ctx root) [(Act.down, root)] [] []).getD
    ([], [])

/-- Cost of one stack entry for the termination measure. -/
def entryCost (ctx : Ctx) (e : Act × Nat) : Nat :=
  match e.1 with
  | .down => 2 * weight ctx e.2
  | .up => 1

/-- Termination measure of the work stack. -/
def stackMeasure (ctx : Ctx) (todo : List (Act × Nat)) : Nat :=
  (todo.map (entryCost ctx)).sum

/-- `lookup` after consing the looked-up key. -/
theorem lookup_cons_self (n v : Nat) (w : List (Nat × Nat)) :
    ((n, v) :: w).lookup n = some v := by
  simp [List.lookup]

/-- `lookup` after consing a different key. -/
theorem lookup_cons_ne (k n v : Nat) (w : List (Nat × Nat)) (h : k ≠ n) :
    ((n, v) :: w).lookup k = w.lookup k := by
  simp [List.lookup, beq_false_of_ne h]

/-- The stack discipline invariant: reading the work stack top-down while
accumulating the nodes seen so far (`avail`), every `Up` entry's children
are either already weighted or appear in some entry above it. -/
def StackOk (ctx : Ctx) (w : List (Nat × Nat)) :
    List Nat → List (Act × Nat) → Prop
  | _, [] => True
  | avail, (act, n) :: rest =>
      (act = Act.up → ∀ c ∈ ctx.childrenOf n,
        ((w.lookup c).isSome = true) ∨ c ∈ avail) ∧
      StackOk ctx w (n :: avail) rest

/-- Unfolding equation of `StackOk` on a cons cell. -/
theorem stackOk_cons (ctx : Ctx) (w : List (Nat × Nat)) (avail : List Nat)
    (act : Act) (n : Nat) (rest : List (Act × Nat)) :
    StackOk ctx w avail ((act, n) :: rest) ↔
      ((act = Act.up → ∀ c ∈ ctx.childrenOf n,
        ((w.lookup c).isSome = true) ∨ c ∈ avail) ∧
      StackOk ctx w (n :: avail) rest) := Iff.rfl

/-- `StackOk` is monotone in the weight map. -/
theorem stackOk_mono_weights (ctx : Ctx) (w w2 : List (Nat × Nat))
    (hmono : ∀ c, ((w.lookup c).isSome = true) →
      ((w2.lookup c).isSome = true)) :
    ∀ todo avail, StackOk ctx w avail todo → StackOk ctx w2 avail todo := by
  intro todo
  induction todo with
  | nil => intro avail h; exact h
  | cons e rest ih =>
    intro avail h
    obtain ⟨act, n⟩ := e
    refine ⟨fun ha c hc => ?_, ih (n :: avail) h.2⟩
    rcases h.1 ha c hc with hw | hm
    · exact Or.inl (hmono c hw)
    · exact Or.inr hm

/-- `StackOk` is monotone in the available-above list. -/
theorem stackOk_mono_avail (ctx : Ctx) (w : List (Nat × Nat)) :
    ∀ todo avail avail2, (∀ x ∈ avail, x ∈ avail2) →
      StackOk ctx w avail todo → StackOk ctx w avail2 todo := by
  intro todo
  induction todo with
  | nil => intro _ _ _ h; exact h
  | cons e rest ih =>
    intro avail avail2 hsub h
    obtain ⟨act, n⟩ := e
    refine ⟨fun ha c hc => ?_, ?_⟩
    · rcases h.1 ha c hc with hw | hm
      · exact Or.inl hw
      · exact Or.inr (hsub c hm)
    · refine ih (n :: avail) (n :: avail2) ?_ h.2
      intro x hx
      rcases List.mem_cons.mp hx with rfl | hx2
      · exact List.mem_cons_self _ _
      · exact List.mem_cons_of_mem _ (hsub x hx2)

/-- A weighted node can be dropped from the available-above list. -/
theorem stackOk_remove_weighted (ctx : Ctx) (w : List (Nat × Nat))
    (n : Nat) (hn : (w.lookup n).isSome = true) :
    ∀ todo avail, StackOk ctx w (n :: avail) todo →
      StackOk ctx w avail todo := by
  intro todo
  induction todo with
  | nil => intro _ h; exact h
  | cons e rest ih =>
    intro avail h
    obtain ⟨act, m⟩ := e
    refine ⟨fun ha c hc => ?_, ?_⟩
    · rcases h.1 ha c hc with hw | hm
      · exact Or.inl hw
      · rcases List.mem_cons.mp hm with rfl | hm2
        · exact Or.inl hn
        · exact Or.inr hm2
    · have := stackOk_mono_avail ctx w rest (m :: n :: avail)
        (n :: m :: avail) (by intro x hx; simp at hx ⊢; tauto) h.2
      exact ih (m :: avail) this

/-- Pushing a block of `Down` entries shifts their nodes into the
available-above list. -/
theorem stackOk_append_downs (ctx : Ctx) (w : List (Nat × Nat))
    (ns : List Nat) :
    ∀ (avail : List Nat) (l : List (Act × Nat)),
      StackOk ctx w avail ((ns.map (fun c => (Act.down, c))) ++ l) ↔
      StackOk ctx w (ns.reverse ++ avail) l := by
  induction ns with
  | nil => intro avail l; simp
  | cons hd tl ih =>
    intro avail l
    simp only [List.map_cons, List.cons_append, List.reverse_cons,
      List.append_assoc, List.singleton_append]
    constructor
    · intro h
      exact (ih (hd :: avail) l).mp h.2
    · intro h
      rw [stackOk_cons]
      exact ⟨(fun hcontra => nomatch hcontra), (ih (hd :: avail) l).mpr h⟩

/-- A successful lookup names a pair of the list. -/
theorem lookup_mem (w : List (Nat × Nat)) (k v : Nat)
    (h : w.lookup k = some v) : (k, v) ∈ w := by
  induction w with
  | nil => cases h
  | cons q t ih =>
    obtain ⟨a, b⟩ := q
    by_cases hk : k = a
    · subst hk
      rw [lookup_cons_self] at h
      cases h
      exact List.mem_cons_self _ _
    · rw [lookup_cons_ne _ _ _ _ hk] at h
      exact List.mem_cons_of_mem _ (ih h)

/-- Consing a pair can only add lookup results. -/
theorem lookup_cons_isSome (w : List (Nat × Nat)) (k n v : Nat)
    (h : (w.lookup k).isSome = true) :
    ((((n, v) :: w).lookup k).isSome = true) := by
  by_cases hk : k = n
  · subst hk
    rw [lookup_cons_self]
    rfl
  · rw [lookup_cons_ne _ _ _ _ hk]
    exact h

/-- With fuel exceeding the stack measure the loop completes (on a
well-formed context). -/
theorem pickInlineLoop_term (ctx : Ctx) (hwf : ctx.WF) (W : Nat) :
    ∀ fuel todo weights inline, stackMeasure ctx todo < fuel →
      ((pickInlineLoop ctx W fuel todo weights inline).isSome = true) := by
  intro fuel
  induction fuel with
  | zero => intro todo _ _ h; omega
  | succ f ih =>
    intro todo weights inline h
    rcases todo with _ | ⟨⟨act, n⟩, rest⟩
    · rfl
    · simp only [pickInlineLoop]
      have hsplit : stackMeasure ctx ((act, n) :: rest)
          = entryCost ctx (act, n) + stackMeasure ctx rest := by
        simp [stackMeasure]
      by_cases hw : (weights.lookup n).isSome = true
      · rw [if_pos hw]
        apply ih
        have hc : 1 ≤ entryCost ctx (act, n) := by
          have hp := weight_pos ctx n
          cases act <;> simp [entryCost] <;> omega
        omega
      · rw [if_neg hw]
        cases act with
        | down =>
          apply ih
          have hmeq : stackMeasure ctx
              ((((ctx.childrenOf n).map (fun c => (Act.down, c))).reverse)
                ++ (Act.up, n) :: rest)
              = 2 * ((ctx.childrenOf n).map (weight ctx)).sum + 1
                + stackMeasure ctx rest := by
            unfold stackMeasure
            rw [List.map_append, List.sum_append, List.map_reverse,
              List.sum_reverse, List.map_map]
            have he : (entryCost ctx ∘ fun c => (Act.down, c))
                = fun c => 2 * weight ctx c := rfl
            rw [he]
            have h2 : ((ctx.childrenOf n).map
                (fun c => 2 * weight ctx c)).sum
                = 2 * ((ctx.childrenOf n).map (weight ctx)).sum := by
              induction ctx.childrenOf n with
              | nil => rfl
              | cons hd tl ih2 =>
                simp only [List.map_cons, List.sum_cons, ih2]
                ring
            rw [h2]
            simp [entryCost]
            omega
          rw [hmeq]
          have hwn : weight ctx n
              = 1 + ((ctx.childrenOf n).map (weight ctx)).sum :=
            weight_eq ctx hwf n
          have hcost : entryCost ctx (Act.down, n) = 2 * weight ctx n := rfl
          omega
        | up =>
          apply ih
          have hcost : entryCost ctx (Act.up, n) = 1 := rfl
          omega

/-- Weights already recorded survive the rest of the loop unchanged. -/
theorem pickInlineLoop_mono (ctx : Ctx) (W : Nat) :
    ∀ fuel todo weights inline res,
      pickInlineLoop ctx W fuel todo weights inline = some res →
      ∀ k v, weights.lookup k = some v → res.1.lookup k = some v := by
  intro fuel
  induction fuel with
  | zero =>
    intro todo w i res h
    simp [pickInlineLoop] at h
  | succ f ih =>
    intro todo w i res h k v hk
    rcases todo with _ | ⟨⟨act, n⟩, rest⟩
    · simp only [pickInlineLoop, Option.some.injEq] at h
      subst h
      exact hk
    · simp only [pickInlineLoop] at h
      by_cases hw : (w.lookup n).isSome = true
      · rw [if_pos hw] at h
        exact ih rest w i res h k v hk
      · rw [if_neg hw] at h
        cases act with
        | down => exact ih _ w i res h k v hk
        | up =>
          have hkn : k ≠ n := by
            intro he
            subst he
            rw [hk] at hw
            exact hw rfl
          refine ih rest _ _ res h k v ?_
          rw [lookup_cons_ne _ _ _ _ hkn]
          exact hk

/-- Partial correctness of the `pick_inline` loop: from a state satisfying
the invariants, the final weight map is sound (every recorded weight is the
true weight), closed under children, drives the inline list, and covers
every node mentioned on the stack. -/
theorem pickInlineLoop_spec (ctx : Ctx) (hwf : ctx.WF) (W : Nat) :
    ∀ fuel todo weights inline res,
      pickInlineLoop ctx W fuel todo weights inline = some res →
      (∀ q ∈ weights, q.2 = weight ctx q.1) →
      (∀ n, ((weights.lookup n).isSome = true) →
        ∀ c ∈ ctx.childrenOf n, ((weights.lookup c).isSome = true)) →
      (∀ n, n ∈ inline ↔
        (((weights.lookup n).isSome = true) ∧ weight ctx n ≤ W)) →
      StackOk ctx weights [] todo →
      ((∀ q ∈ res.1, q.2 = weight ctx q.1) ∧
       (∀ n, ((res.1.lookup n).isSome = true) →
         ∀ c ∈ ctx.childrenOf n, ((res.1.lookup c).isSome = true)) ∧
       (∀ n, n ∈ res.2 ↔
         (((res.1.lookup n).isSome = true) ∧ weight ctx n ≤ W)) ∧
       (∀ e ∈ todo, ((res.1.lookup e.2).isSome = true))) := by
  intro fuel
  induction fuel with
  | zero =>
    intro todo w i res h
    simp [pickInlineLoop] at h
  | succ f ih =>
    intro todo w i res h hsound hclosed hinline hstack
    rcases todo with _ | ⟨⟨act, n⟩, rest⟩
    · simp only [pickInlineLoop, Option.some.injEq] at h
      subst h
      exact ⟨hsound, hclosed, hinline,
        fun e he => absurd he (List.not_mem_nil e)⟩
    · simp only [pickInlineLoop] at h
      have hstack2 := (stackOk_cons ctx w [] act n rest).mp hstack
      by_cases hw : (w.lookup n).isSome = true
      · rw [if_pos hw] at h
        have hst : StackOk ctx w [] rest :=
          stackOk_remove_weighted ctx w n hw rest [] hstack2.2
        obtain ⟨r1, r2, r3, r4⟩ :=
          ih rest w i res h hsound hclosed hinline hst
        refine ⟨r1, r2, r3, ?_⟩
        intro e he
        rcases List.mem_cons.mp he with rfl | he2
        · obtain ⟨v, hv⟩ := Option.isSome_iff_exists.mp hw
          have hm := pickInlineLoop_mono ctx W f rest w i res h n v hv
          rw [hm]
          rfl
        · exact r4 e he2
      · rw [if_neg hw] at h
        cases act with
        | down =>
          have hstackNew : StackOk ctx w []
              ((((ctx.childrenOf n).map
                (fun c => (Act.down, c))).reverse)
                ++ (Act.up, n) :: rest) := by
            have e1 : ((ctx.childrenOf n).map
                (fun c => (Act.down, c))).reverse
                = (ctx.childrenOf n).reverse.map
                    (fun c => (Act.down, c)) := by
              rw [List.map_reverse]
            rw [e1, stackOk_append_downs, List.reverse_reverse,
              List.append_nil, stackOk_cons]
            refine ⟨fun _ c hc => Or.inr hc, ?_⟩
            refine stackOk_mono_avail ctx w rest [n]
              (n :: ctx.childrenOf n) ?_ hstack2.2
            intro x hx
            rcases List.mem_singleton.mp hx with rfl
            exact List.mem_cons_self _ _
          obtain ⟨r1, r2, r3, r4⟩ :=
            ih _ w i res h hsound hclosed hinline hstackNew
          refine ⟨r1, r2, r3, ?_⟩
          intro e he
          rcases List.mem_cons.mp he with rfl | he2
          · exact r4 (Act.up, n)
              (List.mem_append_right _ (List.mem_cons_self _ _))
          · exact r4 e
              (List.mem_append_right _ (List.mem_cons_of_mem _ he2))
        | up =>
          have hch : ∀ c ∈ ctx.childrenOf n,
              ((w.lookup c).isSome = true) := by
            intro c hc
            rcases hstack2.1 rfl c hc with h1 | h1
            · exact h1
            · exact absurd h1 (List.not_mem_nil c)
          have hval : 1 + ((ctx.childrenOf n).map
              (fun c => (w.lookup c).getD 0)).sum = weight ctx n := by
            rw [weight_eq ctx hwf n]
            congr 1
            refine congrArg List.sum ?_
            apply List.map_congr_left
            intro c hc
            obtain ⟨v, hv⟩ := Option.isSome_iff_exists.mp (hch c hc)
            rw [hv]
            have hmem := lookup_mem w c v hv
            have hvv : v = weight ctx c := hsound (c, v) hmem
            simp only [Option.getD_some]
            exact hvv
          rw [hval] at h
          have hsound2 : ∀ q ∈ (n, weight ctx n) :: w,
              q.2 = weight ctx q.1 := by
            intro q hq
            rcases List.mem_cons.mp hq with rfl | hq2
            · rfl
            · exact hsound q hq2
          have hclosed2 : ∀ m,
              ((((n, weight ctx n) :: w).lookup m).isSome = true) →
              ∀ c ∈ ctx.childrenOf m,
                ((((n, weight ctx n) :: w).lookup c).isSome = true) := by
            intro m hm c hc
            by_cases hmn : m = n
            · subst hmn
              exact lookup_cons_isSome w c m (weight ctx m) (hch c hc)
            · rw [lookup_cons_ne _ _ _ _ hmn] at hm
              exact lookup_cons_isSome w c n (weight ctx n)
                (hclosed m hm c hc)
          have hinline2 : ∀ m,
              (m ∈ (if weight ctx n ≤ W then n :: i else i)) ↔
              (((((n, weight ctx n) :: w).lookup m).isSome = true) ∧
               weight ctx m ≤ W) := by
            intro m
            by_cases hmn : m = n
            · subst hmn
              rw [lookup_cons_self]
              simp only [Option.isSome_some, true_and]
              by_cases hWn : weight ctx m ≤ W
              · rw [if_pos hWn]
                exact ⟨fun _ => hWn, fun _ => List.mem_cons_self _ _⟩
              · rw [if_neg hWn]
                constructor
                · intro hmem
                  exact absurd ((hinline m).mp hmem).1 (by simpa using hw)
                · intro hc
                  exact absurd hc hWn
            · rw [lookup_cons_ne _ _ _ _ hmn]
              by_cases hWn : weight ctx n ≤ W
              · rw [if_pos hWn]
                constructor
                · intro hmem
                  rcases List.mem_cons.mp hmem with rfl | hm2
                  · exact absurd rfl hmn
                  · exact (hinline m).mp hm2
                · intro hc
                  exact List.mem_cons_of_mem _ ((hinline m).mpr hc)
              · rw [if_neg hWn]
                exact hinline m
          have hstack3 : StackOk ctx ((n, weight ctx n) :: w) [] rest := by
            refine stackOk_remove_weighted ctx _ n ?_ rest [] ?_
            · rw [lookup_cons_self]
              rfl
            · refine stackOk_mono_weights ctx w _ ?_ rest [n] hstack2.2
              intro c hc
              exact lookup_cons_isSome w c n (weight ctx n) hc
          obtain ⟨r1, r2, r3, r4⟩ :=
            ih rest _ _ res h hsound2 hclosed2 hinline2 hstack3
          refine ⟨r1, r2, r3, ?_⟩
          intro e he
          rcases List.mem_cons.mp he with rfl | he2
          · have hm := pickInlineLoop_mono ctx W f rest _ _ res h n
              (weight ctx n) (lookup_cons_self _ _ _)
            rw [hm]
            rfl
          · exact r4 e he2

/-- A child-closed weight map that covers a node covers everything
reachable from it. -/
theorem lookup_isSome_of_reaches (ctx : Ctx) (w : List (Nat × Nat))
    (hclosed : ∀ n, ((w.lookup n).isSome = true) →
      ∀ c ∈ ctx.childrenOf n, ((w.lookup c).isSome = true))
    {n m : Nat} (hr : Reaches ctx n m)
    (hn : (w.lookup n).isSome = true) : (w.lookup m).isSome = true := by
  induction hr with
  | refl => exact hn
  | step _ hc ih => exact hclosed _ ih _ hc

/-- C6: on a well-formed context, for every node reachable from the root,
`pick_inline` (run with `buildy`'s threshold 7) records a weight equal to 1
plus the sum of its children's recorded weights — the recursive `weight` —
and places the node in the inline set exactly when that weight is at
most 7. -/
theorem pick_inline_weight_and_threshold (ctx : Ctx) (hwf : ctx.WF)
    (root n : Nat) (hreach : Reaches ctx root n) :
    (pickInline ctx root 7).1.lookup n = some (weight ctx n) ∧
    (pickInline ctx root 7).1.lookup n =
      some (1 + ((ctx.childrenOf n).map
        (fun c => (((pickInline ctx root 7).1.lookup c).getD 0))).sum) ∧
    (n ∈ (pickInline ctx root 7).2 ↔ weight ctx n ≤ 7) := by
  have hterm := pickInlineLoop_term ctx hwf 7 (pickFuel ctx root)
    [(Act.down, root)] [] []
    (by simp [stackMeasure, entryCost, pickFuel])
  obtain ⟨res, hres⟩ := Option.isSome_iff_exists.mp hterm
  have hpk : pickInline ctx root 7 = res := by
    unfold pickInline
    rw [hres]
    rfl
  obtain ⟨r1, r2, r3, r4⟩ := pickInlineLoop_spec ctx hwf 7
    (pickFuel ctx root) [(Act.down, root)] [] [] res hres
    (fun q hq => absurd hq (List.not_mem_nil q))
    (fun k hk => by simp [List.lookup] at hk)
    (fun k => by simp [List.lookup])
    ((stackOk_cons ctx [] [] Act.down root []).mpr
      ⟨(fun h => nomatch h), trivial⟩)
  have hroot : (res.1.lookup root).isSome = true :=
    r4 (Act.down, root) (List.mem_cons_self _ _)
  have hnw : (res.1.lookup n).isSome = true :=
    lookup_isSome_of_reaches ctx res.1 r2 hreach hroot
  obtain ⟨v, hv⟩ := Option.isSome_iff_exists.mp hnw
  have hveq : v = weight ctx n := r1 (n, v) (lookup_mem _ _ _ hv)
  have hsum : ((ctx.childrenOf n).map
      (fun c => (res.1.lookup c).getD 0)).sum
      = ((ctx.childrenOf n).map (weight ctx)).sum := by
    refine congrArg List.sum ?_
    apply List.map_congr_left
    intro c hc
    obtain ⟨vc, hvc⟩ := Option.isSome_iff_exists.mp (r2 n hnw c hc)
    rw [hvc]
    simp only [Option.getD_some]
    exact r1 (c, vc) (lookup_mem _ _ _ hvc)
  rw [hpk]
  refine ⟨by rw [hv, hveq], ?_, ?_⟩
  · rw [hv, hveq, hsum, ← weight_eq ctx hwf n]
  · rw [r3 n]
    exact ⟨fun h => h.2, fun h => ⟨hnw, h⟩⟩

/-- A three-node context, `min(x, y)`, as a concrete example. -/
def ctx3 : Ctx := ⟨[NodeOp.input 0, NodeOp.input 1,
  NodeOp.binary BinOp.bmin 0 1]⟩

/-- C6 witness: on `min(x, y)` the loop records the recursive weight of
the root and the inline test is the threshold comparison. -/
theorem pick_inline_weight_witness :
    (pickInline ctx3 2 7).1.lookup 2 = some (weight ctx3 2) ∧
    (pickInline ctx3 2 7).1.lookup 2 =
      some (1 + ((ctx3.childrenOf 2).map
        (fun c => (((pickInline ctx3 2 7).1.lookup c).getD 0))).sum) ∧
    (2 ∈ (pickInline ctx3 2 7).2 ↔ weight ctx3 2 ≤ 7) :=
  pick_inline_weight_and_threshold ctx3 (by decide) 2 2 (Reaches.refl 2)

/-- A branch choice (`eval::tracing::Choice`). -/
inductive ChoiceSide where
  | left
  | right
deriving DecidableEq, Repr

/-- A DNF clause: which side of which choice node must be taken for a node
to be live (`chunky::DnfClause`). -/
structure DnfClause where
  root : Nat
  choice : ChoiceSide
deriving DecidableEq, Repr

/-- True when the node is a `Min` or `Max`. -/
def isChoiceNode (ctx : Ctx) (n : Nat) : Bool :=
  match ctx.getOp n with
  | NodeOp.binary BinOp.bmin _ _ => true
  | NodeOp.binary BinOp.bmax _ _ => true
  | _ => false

/-- `assign_choices` (with fuel): depth-first walk from the root assigning
a dense choice index to every `Min`/`Max` node in discovery order. -/
def assignChoicesLoop (ctx : Ctx) :
    Nat → List Nat → List Nat → List (Nat × Nat) → List (Nat × Nat)
  | 0, _, _, acc => acc
  | _ + 1, [], _, acc => acc
  | fuel + 1, n :: rest, seen, acc =>
    if n ∈ seen then assignChoicesLoop ctx fuel rest seen acc
    else
      assignChoicesLoop ctx fuel ((ctx.childrenOf n).reverse ++ rest)
        (n :: seen)
        (if isChoiceNode ctx n ∧ (acc.lookup n).isNone
         then acc ++ [(n, acc.length)] else acc)

/-- `assign_choices` from `chunky/mod.rs`. -/
def assignChoices (ctx : Ctx) (root : Nat) : List (Nat × Nat) :=
  assignChoicesLoop ctx (2 * weight ctx root + 1) [root] [] []

/-- Replace (or create) the entry for a key in an association list. -/
def setEntry (acc : List (Nat × List (Option DnfClause))) (n : Nat)
    (v : List (Option DnfClause)) : List (Nat × List (Option DnfClause)) :=
  (n, v) :: acc.filter (fun q => decide (q.1 ≠ n))

/-- The child entries pushed by one `find_groups` step (head of the list
is the top of the work stack, as in the Rust `Vec`). -/
def findGroupsPushes (ctx : Ctx) (choiceId : List (Nat × Nat)) (n : Nat)
    (dnf : Option DnfClause) : List (Nat × Option DnfClause) :=
  match ctx.getOp n with
  | NodeOp.input _ => []
  | NodeOp.varOp _ => []
  | NodeOp.constOp _ => []
  | NodeOp.unary _ c => [(c, dnf)]
  | NodeOp.binary BinOp.bmin l r =>
      [(r, some ⟨(choiceId.lookup n).getD 0, ChoiceSide.right⟩),
       (l, some ⟨(choiceId.lookup n).getD 0, ChoiceSide.left⟩)]
  | NodeOp.binary BinOp.bmax l r =>
      [(r, some ⟨(choiceId.lookup n).getD 0, ChoiceSide.right⟩),
       (l, some ⟨(choiceId.lookup n).getD 0, ChoiceSide.left⟩)]
  | NodeOp.binary _ l r => [(r, dnf), (l, dnf)]

/-- `find_groups` work-stack loop (with fuel): walk from the root with an
optional DNF clause, skipping inline nodes and already-seen
(node, clause) pairs, recording per node the list of clauses seen. -/
def findGroupsLoop (ctx : Ctx) (inline : List Nat)
    (choiceId : List (Nat × Nat)) :
    Nat → List (Nat × Option DnfClause) →
    List (Nat × List (Option DnfClause)) →
    Option (List (Nat × List (Option DnfClause)))
  | 0, _, _ => none
  | _ + 1, [], acc => some acc
  | fuel + 1, (n, dnf) :: rest, acc =>
    if n ∈ inline then findGroupsLoop ctx inline choiceId fuel rest acc
    else if dnf ∈ (acc.lookup n).getD [] then
      findGroupsLoop ctx inline choiceId fuel rest acc
    else
      findGroupsLoop ctx inline choiceId fuel
        (findGroupsPushes ctx choiceId n dnf ++ rest)
        (setEntry acc n (dnf :: (acc.lookup n).getD []))

/-- Set equality of clause lists. -/
def dnfSetEq (a b : List (Option DnfClause)) : Bool :=
  a.all (· ∈ b) && b.all (· ∈ a)

/-- Add a node under its DNF key when inverting the node-to-DNF map. -/
def invertAdd (acc : List (List (Option DnfClause) × List Nat))
    (d : List (Option DnfClause)) (n : Nat) :
    List (List (Option DnfClause) × List Nat) :=
  match acc with
  | [] => [(d, [n])]
  | (k, ns) :: rest =>
      if dnfSetEq k d then (k, n :: ns) :: rest
      else (k, ns) :: invertAdd rest d n

/-- `find_groups` from `chunky/mod.rs` (with fuel): run the walk, collapse
any clause list containing the always-live clause `none` down to the
`none`-only list, and invert the map from nodes to clause sets into groups
of nodes keyed by clause set. -/
def findGroups (ctx : Ctx) (inline : List Nat)
    (choiceId : List (Nat × Nat)) (fuel root : Nat) :
    Option (List (List (Option DnfClause) × List Nat)) :=
  (findGroupsLoop ctx inline choiceId fuel [(root, none)] []).map
    (fun acc =>
      (acc.map (fun q =>
        (q.1, if q.2.length > 1 ∧ none ∈ q.2
              then q.2.filter Option.isNone else q.2))).foldl
        (fun m q => invertAdd m q.2 q.1) [])

/-- The seed of the inline-absorption closure in `buildy`: the inline
children of the original group members. -/
def absorbSeed (ctx : Ctx) (inline : List Nat) (g : List Nat) : List Nat :=
  (g.map (fun n =>
    (ctx.childrenOf n).filter (fun c => decide (c ∈ inline)))).flatten

/-- The absorption closure loop of `buildy` (with fuel): pop a node; when
it is new, insert it into the group and push all of its children. -/
def absorbLoop (ctx : Ctx) :
    Nat → List Nat → List Nat → Option (List Nat)
  | 0, _, _ => none
  | _ + 1, [], nodes => some nodes
  | fuel + 1, n :: rest, nodes =>
    if n ∈ nodes then absorbLoop ctx fuel rest nodes
    else absorbLoop ctx fuel ((ctx.childrenOf n).reverse ++ rest)
      (n :: nodes)

/-- Fuel for one absorption run. -/
def absorbFuel (ctx : Ctx) (g : List Nat) : Nat :=
  (ctx.ops.length + g.length + (absorbSeed ctx [] g).length + 2) * 4

/-- Absorb the inline children (transitively) into one group. -/
def absorbGroup (ctx : Ctx) (inline : List Nat) (g : List Nat) :
    Option (List Nat) :=
  absorbLoop ctx (absorbFuel ctx g) (absorbSeed ctx inline g) g

/-- Absorb inline children into every group. -/
def absorbAll (ctx : Ctx) (inline : List Nat) (gs : List (List Nat)) :
    Option (List (List Nat)) :=
  gs.mapM (absorbGroup ctx inline)

/-- The pre-insertion globals set of `buildy`: every child referenced by a
group member but not contained in that group. -/
def preGlobals (ctx : Ctx) (groups : List (List Nat)) : List Nat :=
  (groups.map (fun g =>
    (g.map (fun n =>
      (ctx.childrenOf n).filter (fun c => decide (c ∉ g)))).flatten)).flatten

/-- The globals set of `buildy`: the pre-insertion globals plus the root
(`globals.insert(root)`). -/
def buildyGlobalsFrom (root : Nat) (pre : List Nat) : List Nat :=
  root :: pre

/-- Fuel for the `find_groups` walk of the concrete example. -/
def buildyFuel (ctx : Ctx) : Nat := (ctx.ops.length + 1) * 8

/-- The full `buildy` globals pipeline: inline selection, choice
assignment, DNF grouping, inline absorption, pre-globals, root
insertion. -/
def buildyGlobals (ctx : Ctx) (root : Nat) : Option (List Nat) :=
  match findGroups ctx ((pickInline ctx root 7).2)
      (assignChoices ctx root) (buildyFuel ctx) root with
  | none => none
  | some dnfGroups =>
    match absorbAll ctx ((pickInline ctx root 7).2)
        (dnfGroups.map Prod.snd) with
    | none => none
    | some groups =>
        some (buildyGlobalsFrom root (preGlobals ctx groups))

/-- C7: counterexample.  On the context `min(x, y)` the root weighs 3 and
is therefore inline, yet `buildy` always inserts the root into the globals
set after its disjointness assertion, so the globals and inline sets are
not disjoint: node 2 is in both. -/
theorem globals_inline_not_disjoint :
    buildyGlobals ctx3 2 = some [2] ∧
    2 ∈ (pickInline ctx3 2 7).2 := by decide

/-- Everything on the absorption work list, and everything already in the
group, ends up in the absorption result. -/
theorem absorbLoop_mem (ctx : Ctx) :
    ∀ fuel todo nodes res, absorbLoop ctx fuel todo nodes = some res →
      ∀ m, (m ∈ todo ∨ m ∈ nodes) → m ∈ res := by
  intro fuel
  induction fuel with
  | zero =>
    intro todo nodes res h
    simp [absorbLoop] at h
  | succ f ih =>
    intro todo nodes res h m hm
    rcases todo with _ | ⟨n, rest⟩
    · simp only [absorbLoop, Option.some.injEq] at h
      subst h
      rcases hm with hm | hm
      · cases hm
      · exact hm
    · simp only [absorbLoop] at h
      by_cases hn : n ∈ nodes
      · rw [if_pos hn] at h
        rcases hm with hm | hm
        · rcases List.mem_cons.mp hm with rfl | hm2
          · exact ih rest nodes res h m (Or.inr hn)
          · exact ih rest nodes res h m (Or.inl hm2)
        · exact ih rest nodes res h m (Or.inr hm)
      · rw [if_neg hn] at h
        rcases hm with hm | hm
        · rcases List.mem_cons.mp hm with rfl | hm2
          · exact ih _ _ res h m (Or.inr (List.mem_cons_self _ _))
          · exact ih _ _ res h m (Or.inl (List.mem_append_right _ hm2))
        · exact ih _ _ res h m (Or.inr (List.mem_cons_of_mem _ hm))

/-- Every child of a node inserted by the absorption loop is in the
result. -/
theorem absorbLoop_children (ctx : Ctx) :
    ∀ fuel todo nodes res, absorbLoop ctx fuel todo nodes = some res →
      ∀ m ∈ res, m ∉ nodes → ∀ c ∈ ctx.childrenOf m, c ∈ res := by
  intro fuel
  induction fuel with
  | zero =>
    intro todo nodes res h
    simp [absorbLoop] at h
  | succ f ih =>
    intro todo nodes res h m hm hmn c hc
    rcases todo with _ | ⟨n, rest⟩
    · simp only [absorbLoop, Option.some.injEq] at h
      subst h
      exact absurd hm hmn
    · simp only [absorbLoop] at h
      by_cases hn : n ∈ nodes
      · rw [if_pos hn] at h
        exact ih rest nodes res h m hm hmn c hc
      · rw [if_neg hn] at h
        by_cases hmn2 : m = n
        · subst hmn2
          exact absorbLoop_mem ctx f _ _ res h c
            (Or.inl (List.mem_append_left _ (List.mem_reverse.mpr hc)))
        · refine ih _ _ res h m hm ?_ c hc
          intro hcon
          rcases List.mem_cons.mp hcon with h3 | h3
          · exact hmn2 h3
          · exact hmn h3

/-- Every element of a successful `mapM` result comes from applying the
function to some element of the input list. -/
theorem mapM_mem_exists {α β : Type} (f : α → Option β) :
    ∀ (l : List α) (res : List β), l.mapM f = some res →
      ∀ b ∈ res, ∃ a ∈ l, f a = some b := by
  intro l
  induction l with
  | nil =>
    intro res h b hb
    simp only [List.mapM_nil, Option.pure_def, Option.some.injEq] at h
    subst h
    cases hb
  | cons x t ih =>
    intro res h b hb
    simp only [List.mapM_cons, Option.pure_def, Option.bind_eq_bind] at h
    cases hfx : f x with
    | none => rw [hfx] at h; cases h
    | some y =>
      rw [hfx] at h
      cases hts : List.mapM f t with
      | none => rw [hts] at h; cases h
      | some ys =>
        rw [hts] at h
        simp only [Option.some_bind, Option.some.injEq] at h
        subst h
        rcases List.mem_cons.mp hb with rfl | hb2
        · exact ⟨x, List.mem_cons_self _ _, hfx⟩
        · obtain ⟨a, ha, hfa⟩ := ih ys hts b hb2
          exact ⟨a, List.mem_cons_of_mem _ ha, hfa⟩

/-- C7 amended: for any context, any inline list and any initial groups,
after `buildy`'s inline absorption the pre-insertion globals set never
contains an inline node (the disjointness the code asserts); the full
globals set is exactly the pre-insertion set together with the root, and
the root is always a global.  The root itself may be inline, so the full
globals set need not be disjoint from the inline set. -/
theorem globals_pre_disjoint_and_root (ctx : Ctx) (inline : List Nat)
    (gs : List (List Nat)) (groups : List (List Nat)) (root : Nat)
    (habs : absorbAll ctx inline gs = some groups) :
    (∀ n ∈ preGlobals ctx groups, n ∉ inline) ∧
    buildyGlobalsFrom root (preGlobals ctx groups)
      = root :: preGlobals ctx groups ∧
    root ∈ buildyGlobalsFrom root (preGlobals ctx groups) := by
  refine ⟨?_, rfl, List.mem_cons_self _ _⟩
  intro n hn hinl
  unfold preGlobals at hn
  obtain ⟨l1, hl1m, hl1⟩ := List.mem_flatten.mp hn
  obtain ⟨g, hg, hgeq⟩ := List.mem_map.mp hl1m
  subst hgeq
  obtain ⟨l2, hl2m, hl2⟩ := List.mem_flatten.mp hl1
  obtain ⟨m, hm, hmeq⟩ := List.mem_map.mp hl2m
  subst hmeq
  have hcf := List.mem_filter.mp hl2
  have hchild : n ∈ ctx.childrenOf m := hcf.1
  have hnot : n ∉ g := by simpa using hcf.2
  obtain ⟨g0, hg0, hgr⟩ :=
    mapM_mem_exists (absorbGroup ctx inline) gs groups habs g hg
  unfold absorbGroup at hgr
  by_cases hm0 : m ∈ g0
  · have hseed : n ∈ absorbSeed ctx inline g0 := by
      simp only [absorbSeed, List.mem_flatten, List.mem_map]
      exact ⟨(ctx.childrenOf m).filter (fun c => decide (c ∈ inline)),
        ⟨m, hm0, rfl⟩,
        List.mem_filter.mpr ⟨hchild, by simpa using hinl⟩⟩
    exact hnot (absorbLoop_mem ctx _ _ _ g hgr n (Or.inl hseed))
  · exact hnot (absorbLoop_children ctx _ _ _ g hgr m hm hm0 n hchild)

/-- C7 amended witness: on `min(x, y)` with every node inline and the
single raw group `[2]`, absorption yields the group `[1, 0, 2]`, the
pre-insertion globals set is empty (disjoint from inline), and the root is
a global. -/
theorem globals_pre_disjoint_witness :
    (∀ n ∈ preGlobals ctx3 [[1, 0, 2]], n ∉ [0, 1, 2]) ∧
    buildyGlobalsFrom 2 (preGlobals ctx3 [[1, 0, 2]])
      = 2 :: preGlobals ctx3 [[1, 0, 2]] ∧
    2 ∈ buildyGlobalsFrom 2 (preGlobals ctx3 [[1, 0, 2]]) :=
  globals_pre_disjoint_and_root ctx3 [0, 1, 2] [[2]] [[1, 0, 2]] 2
    (by decide)
